import Mathlib

/-!
# Verification of the `ya-negotiator` negotiation engine core

Shallow embedding of the negotiation engine:

* the negotiator-component chain (`negotiator-component/src/chain.rs`):
  the `negotiate_step` fold and the unique-naming `add_component` loop;
* the proposal collection (`src/collection.rs`): sorted score buffers,
  `new_scored`, `decide`, `set_goal`;
* the composite negotiator dispatch (`src/composite.rs`):
  `process_proposal_result` and `process_agreement_result`;
* the built-in negotiators (`builtin-negotiators/src/max_agreements.rs`
  and `builtin-negotiators/src/expiration.rs`).

Rust `f64` scores are modelled by an inductive carrying NaN, the two
infinities and a rational payload: the embedded code never computes with
scores, it only tests NaN-ness and compares them with `partial_cmp`, and
both observations are captured exactly by this model.  JSON documents are
modelled by a small `Json` inductive; object maps are association lists in
insertion order.  Timestamps are integers (milliseconds since epoch).
Asynchronous effects (channel sends, timers) are modelled by returning the
emitted values in lists; the collection timer itself is out of scope here.
-/

namespace YaNegotiator

/-- Model of Rust `f64` restricted to the observations the embedded code
makes: `is_nan`, `is_finite` and `partial_cmp`.  Finite values are carried
as rationals (a superset of the dyadic doubles, harmless because no score
arithmetic occurs anywhere in the verified code). -/
inductive F64 where
  | nan : F64
  | inf : F64
  | neginf : F64
  | fin (q : ℚ) : F64
deriving DecidableEq

/-- `f64::is_nan`. -/
def F64.isNan : F64 → Bool
  | .nan => true
  | _ => false

/-- `f64::is_finite` (false for NaN and both infinities). -/
def F64.isFinite : F64 → Bool
  | .fin _ => true
  | _ => false

/-- `f64::partial_cmp`: `none` exactly when one operand is NaN; IEEE-754
order otherwise (`inf = inf`, `-inf = -inf`). -/
def F64.pcmp : F64 → F64 → Option Ordering
  | .nan, _ => none
  | _, .nan => none
  | .inf, .inf => some .eq
  | .inf, _ => some .gt
  | _, .inf => some .lt
  | .neginf, .neginf => some .eq
  | .neginf, _ => some .lt
  | _, .neginf => some .gt
  | .fin a, .fin b => some (if a < b then .lt else if a = b then .eq else .gt)

/-- `partial_cmp(..).unwrap()` as used by `ProposalsCollection`'s binary
searches.  Rust panics when an operand is NaN; every call site first
excludes NaN (`new_scored` and `add_rejected` bail on NaN before
searching, and the stored entries are NaN-free by invariant), so the
default branch is unreachable there and its value is irrelevant. -/
def F64.cmpTotal (a b : F64) : Ordering :=
  (F64.pcmp a b).getD .lt

/-- Order embedding of the non-NaN values into a linear order (proof
device: `pcmp` on non-NaN values is `compare` through this embedding). -/
def F64.toE : F64 → WithBot (WithTop ℚ)
  | .nan => ⊥
  | .neginf => ⊥
  | .inf => ((⊤ : WithTop ℚ) : WithBot (WithTop ℚ))
  | .fin q => ((q : WithTop ℚ) : WithBot (WithTop ℚ))

/-- Minimal model of `serde_json::Value`.  Numbers carry a rational
(serde_json cannot represent NaN or infinities); objects are association
lists in insertion order. -/
inductive Json where
  | null : Json
  | bool (b : Bool) : Json
  | num (q : ℚ) : Json
  | str (s : String) : Json
  | arr (elems : List Json) : Json
  | obj (fields : List (String × Json)) : Json

/-- Key lookup in a JSON object map. -/
def Json.lookupField : List (String × Json) → String → Option Json
  | [], _ => none
  | (k, v) :: rest, key => if k = key then some v else Json.lookupField rest key

/-- Split a character list on a separator (`str::split` semantics: `n`
separators yield `n + 1` pieces, empty pieces included). -/
def splitOnChar (sep : Char) : List Char → List (List Char)
  | [] => [[]]
  | c :: rest =>
    match splitOnChar sep rest with
    | [] => [[]]
    | t :: ts => if c = sep then [] :: t :: ts else (c :: t) :: ts

/-- Walk a parsed JSON-pointer token list through nested objects. -/
def Json.pointerToks : Json → List String → Option Json
  | j, [] => some j
  | .obj fields, tok :: rest =>
    match Json.lookupField fields tok with
    | some v => Json.pointerToks v rest
    | none => none
  | _, _ :: _ => none

/-- Modelled from the spec: `serde_json::Value::pointer` as used through
`ya_agreement_utils::OfferTemplate::pointer` (the defining file
`agreement-utils/src/agreement.rs` is not among the sources; spec section 3
describes it as reading a value at a JSON-pointer path over the property
tree).  The empty pointer addresses the whole document, any other pointer
must start with a slash; array indexing and tilde escapes are not used by
the embedded code and are not modelled. -/
def Json.pointer (j : Json) (path : String) : Option Json :=
  match path.data with
  | [] => some j
  | '/' :: rest => Json.pointerToks j ((splitOnChar '/' rest).map String.mk)
  | _ => none

/-- `serde_json::from_value::<i64>`: succeeds exactly on integral numbers
that fit in a signed 64-bit machine word. -/
def Json.asI64 : Json → Option ℤ
  | .num q => if q.den = 1 ∧ -(2 ^ 63) ≤ q.num ∧ q.num < 2 ^ 63 then some q.num else none
  | _ => none

/-- `ya_client_model::market::proposal::State`. -/
inductive ProposalState where
  | initial : ProposalState
  | draft : ProposalState
  | rejected : ProposalState
  | accepted : ProposalState
  | expired : ProposalState
deriving DecidableEq

/-- `ya_agreement_utils::OfferTemplate`: pair of a property document and a
constraints string (spec section 3).  Its defining file is not among the
sources; the shape is fixed by `proposal.rs` and every use site. -/
structure OfferTemplate where
  properties : Json
  constraints : String

/-- `Score` is an `OfferTemplate` (`negotiator-component/src/component.rs`). -/
abbrev Score := OfferTemplate

/-- `ya_agreement_utils::ProposalView` (`agreement-utils/src/proposal.rs`).
`NodeId` is modelled as a string, the timestamp as milliseconds since
epoch. -/
structure ProposalView where
  content : OfferTemplate
  id : String
  issuer : String
  state : ProposalState
  timestamp : ℤ

/-- `ProposalView::pointer` delegates to the content template. -/
def ProposalView.pointer (p : ProposalView) (path : String) : Option Json :=
  p.content.properties.pointer path

/-- `OfferTemplate::pointer_typed::<f64>` followed by `unwrap_or(0.0)`, as
used on score documents in `composite.rs`: the number found at the pointer,
or `0.0` when the pointer is absent or not a number. -/
def OfferTemplate.finalScoreOrDefault (score : Score) (path : String) : F64 :=
  match score.properties.pointer path with
  | some (.num q) => .fin q
  | _ => .fin 0

/-- `RejectReason` (`negotiator-component/src/reason.rs`): a message plus a
flattened JSON object of extra entries. -/
structure RejectReason where
  message : String
  extra : List (String × Json)

/-- `RejectReason::new`: message only, empty extra object. -/
def RejectReason.new (message : String) : RejectReason :=
  { message := message, extra := [] }

/-- `serde_json::Map::insert`: replace the value at an existing key in
place, otherwise append the new entry. -/
def insertField (fields : List (String × Json)) (key : String) (v : Json) :
    List (String × Json) :=
  match fields with
  | [] => [(key, v)]
  | (k, w) :: rest =>
    if k = key then (k, v) :: rest else (k, w) :: insertField rest key v

/-- `RejectReason::entry`. -/
def RejectReason.entry (r : RejectReason) (key : String) (v : Json) : RejectReason :=
  { r with extra := insertField r.extra key v }

/-- `RejectReason::final_flag`: records the
`golem.proposal.rejection.is-final` entry (always, with the given Boolean). -/
def RejectReason.finalFlag (r : RejectReason) (flag : Bool) : RejectReason :=
  r.entry "golem.proposal.rejection.is-final" (.bool flag)

/-- `ya_client_model::market::Reason` (message plus extra JSON object). -/
structure Reason where
  message : String
  extra : List (String × Json)

/-- `impl Into<Reason> for RejectReason`. -/
def RejectReason.toReason (r : RejectReason) : Reason :=
  { message := r.message, extra := r.extra }

/-- Whether a `Reason` carries the spec section 7 finality marker
`golem.proposal.rejection.is-final = true`. -/
def Reason.markedFinal (r : Reason) : Bool :=
  match Json.lookupField r.extra "golem.proposal.rejection.is-final" with
  | some (.bool true) => true
  | _ => false

/-- `NegotiationResult` in the revision used by `chain.rs`,
`composite.rs` and `max_agreements.rs`: `Ready`/`Negotiating` carry the
mutated proposal and score, `Reject` carries a `RejectReason` and the
`is_final` flag. -/
inductive NegotiationResult where
  | ready (proposal : ProposalView) (score : Score) : NegotiationResult
  | negotiating (proposal : ProposalView) (score : Score) : NegotiationResult
  | reject (reason : RejectReason) (isFinal : Bool) : NegotiationResult

/-- A negotiator component, reduced to its `negotiate_step` behaviour:
a function of `(their, template, score)` that may fail (`anyhow::Result`,
errors as strings).  The chain calls components through exactly this
interface. -/
abbrev Component := ProposalView → ProposalView → Score → Except String NegotiationResult

/-- The loop body of `NegotiatorsChain::negotiate_step`
(`chain.rs`, lines 110-161): walk the components in order, threading
`(template, score)` and the `all_ready` flag; a component error or a
`Reject` returns immediately. -/
def chainStepGo (incoming : ProposalView) :
    List (String × Component) → ProposalView → Score → Bool →
    Except String NegotiationResult
  | [], template, score, allReady =>
    .ok (if allReady then .ready template score else .negotiating template score)
  | (_, c) :: rest, template, score, allReady =>
    match c incoming template score with
    | .error e => .error e
    | .ok (.ready p s) => chainStepGo incoming rest p s allReady
    | .ok (.negotiating p s) => chainStepGo incoming rest p s false
    | .ok (.reject r f) => .ok (.reject r f)

/-- `NegotiatorsChain::negotiate_step`: the fold over the ordered
component list, starting with `all_ready = true`. -/
def chainNegotiateStep (components : List (String × Component))
    (incoming template : ProposalView) (score : Score) :
    Except String NegotiationResult :=
  chainStepGo incoming components template score true

/-- Demotion of a chain outcome by an earlier `Negotiating` component:
a final `Ready` becomes `Negotiating`, everything else is unchanged.
(Specification device for the compositional characterisation of the fold;
not part of the source.) -/
def demoteReady : Except String NegotiationResult → Except String NegotiationResult
  | .ok (.ready p s) => .ok (.negotiating p s)
  | r => r

/-! ## The proposal collection (`src/collection.rs`) -/

/-- `ProposalScore`: a fully negotiated proposal pair with its score. -/
structure ProposalScore where
  their : ProposalView
  our : ProposalView
  score : F64

/-- `DecideReason`. -/
inductive DecideReason where
  | timeElapsed : DecideReason
  | goalReached : DecideReason
deriving DecidableEq

/-- `DecideGoal`: `Limit` is consumed by decisions, `Batch` is not. -/
inductive DecideGoal where
  | limit (n : ℕ) : DecideGoal
  | batch (n : ℕ) : DecideGoal
deriving DecidableEq

/-- `CollectionType`. -/
inductive CollectionType where
  | agreement : CollectionType
  | proposal : CollectionType
deriving DecidableEq

/-- The `derive_more::Display` rendering of a `CollectionType`. -/
def CollectionType.display : CollectionType → String
  | .agreement => "Agreement"
  | .proposal => "Proposal"

/-- `FeedbackAction` sent on a collection's feedback channel. -/
inductive FeedbackAction where
  | decide (reason : DecideReason) : FeedbackAction
  | accept (id : String) : FeedbackAction
  | reject (id : String) (reason : RejectReason) (isFinal : Bool) : FeedbackAction

/-- Outcome of Rust `slice::binary_search_by`. -/
inductive SearchResult where
  | found (idx : ℕ) : SearchResult
  | notFound (idx : ℕ) : SearchResult
deriving DecidableEq

/-- The loop of Rust `slice::binary_search_by` (std since 1.52): probe
`mid = left + (right - left) / 2`, narrow to the right of `mid` on `Less`,
to the left on `Greater`, and return `Ok(mid)` on the first `Equal`;
`Err(left)` when the window empties.  `f i` is the comparator applied to
the element at index `i`. -/
def binarySearchGo (f : ℕ → Ordering) : ℕ → ℕ → ℕ → SearchResult
  | 0, left, _ => .notFound left
  | fuel + 1, left, right =>
    if left < right then
      match f (left + (right - left) / 2) with
      | .lt => binarySearchGo f fuel (left + (right - left) / 2 + 1) right
      | .gt => binarySearchGo f fuel left (left + (right - left) / 2)
      | .eq => .found (left + (right - left) / 2)
    else .notFound left

/-- `binary_search_by` over a list; the comparator is the Rust closure
`|proposal| new.score.partial_cmp(&proposal.score).unwrap()`.  The loop is
given `l.length` fuel, which bounds its iteration count since the window
shrinks at every step (`binarySearchGo_fuel` below). -/
def listBinarySearch (cmp : ProposalScore → Ordering) (l : List ProposalScore) : SearchResult :=
  binarySearchGo (fun i => ((l.get? i).map cmp).getD .eq) l.length 0 l.length

/-- The insertion position chosen by `new_scored` and `add_rejected`:
after an equal element found by the binary search (`Ok(idx) => idx + 1`),
or the not-found position (`Err(idx) => idx`). -/
def insertPos (l : List ProposalScore) (new : ProposalScore) : ℕ :=
  match listBinarySearch (fun proposal => F64.cmpTotal new.score proposal.score) l with
  | .found idx => idx + 1
  | .notFound idx => idx

/-- The sorted insertion performed by `new_scored` and `add_rejected`
(`Vec::insert` at the searched position). -/
def insertSorted (l : List ProposalScore) (new : ProposalScore) : List ProposalScore :=
  l.insertIdx (insertPos l new) new

/-- `ProposalsCollection` state.  `collect_period`, the timer handle and
the channel endpoints are not modelled: timer scheduling is real-time
behaviour, and channel sends are modelled by returning the emitted
`FeedbackAction`s. -/
structure ProposalsCollection where
  awaiting : List ProposalScore
  rejected : List ProposalScore
  goal : DecideGoal
  collectAmount : ℕ
  collectionType : CollectionType

/-- `ProposalsCollection::set_goal` (`collection.rs`, lines 122-134):
`Limit(cur)` plus requested `Limit(req)` becomes `Limit(req + cur)`;
every other combination replaces the goal.  The addition is on `usize`,
so it is taken modulo `2^64` (release builds wrap; debug builds panic on
overflow). -/
def ProposalsCollection.setGoal (c : ProposalsCollection) (goal : DecideGoal) :
    ProposalsCollection :=
  match c.goal with
  | .limit current =>
    match goal with
    | .limit numRequested =>
      { c with goal := .limit ((numRequested + current) % 18446744073709551616) }
    | .batch _ => { c with goal := goal }
  | .batch _ => { c with goal := goal }

/-- `ProposalsCollection::new_scored` (`collection.rs`, lines 140-165):
bail on NaN, insert keeping the vector sorted, and emit
`Decide(GoalReached)` when the awaiting count reaches `collect_amount`. -/
def ProposalsCollection.newScored (c : ProposalsCollection) (new : ProposalScore)
    (id : String) : Except String (ProposalsCollection × List FeedbackAction) :=
  if new.score.isNan then
    .error (c.collectionType.display ++ " [" ++ id ++ "] score was set to NaN.")
  else
    let awaiting := insertSorted c.awaiting new
    let feedback :=
      if awaiting.length ≥ c.collectAmount then
        [FeedbackAction.decide .goalReached]
      else []
    .ok ({ c with awaiting := awaiting }, feedback)

/-- `ProposalsCollection::add_rejected` (`collection.rs`, lines 221-241):
bail on NaN (leaving the pool unchanged), else sorted insertion into the
rejected pool. -/
def ProposalsCollection.addRejected (c : ProposalsCollection) (new : ProposalScore) :
    ProposalsCollection :=
  if new.score.isNan then c
  else { c with rejected := insertSorted c.rejected new }

/-- `ProposalsCollection::decide` (`collection.rs`, lines 170-219):
`goal = min(goal_size, |awaiting|)` accepts from the front of the sorted
vector; the remainder is rejected non-final with reason "Node is busy."
and moved into the rejected pool; a `Limit` goal is decremented by the
number of accepts, a `Batch` goal is unchanged.  (The call to
`spawn_collect_period` at the end only reschedules the unmodelled timer.) -/
def ProposalsCollection.decide (c : ProposalsCollection) :
    ProposalsCollection × List FeedbackAction :=
  let goalCount :=
    match c.goal with
    | .limit expectedGoal => min expectedGoal c.awaiting.length
    | .batch batchSize => min batchSize c.awaiting.length
  let newGoal :=
    match c.goal with
    | .limit expectedGoal => DecideGoal.limit (expectedGoal - min expectedGoal c.awaiting.length)
    | .batch b => DecideGoal.batch b
  let accepted := c.awaiting.take goalCount
  let rejectedDrained := c.awaiting.drop goalCount
  let base := { c with awaiting := [], goal := newGoal }
  let finalState := rejectedDrained.foldl (fun s p => s.addRejected p) base
  let feedback :=
    accepted.map (fun proposal => FeedbackAction.accept proposal.their.id) ++
      rejectedDrained.map (fun proposal =>
        FeedbackAction.reject proposal.their.id (RejectReason.new "Node is busy.") false)
  (finalState, feedback)

/-- One externally triggered collection operation. -/
inductive CollectionOp where
  | newScored (entry : ProposalScore) (id : String) : CollectionOp
  | decide : CollectionOp

/-- Apply one operation; a `new_scored` error leaves the state unchanged
(the Rust function bails before mutating) and the caller logs it. -/
def ProposalsCollection.applyOp (c : ProposalsCollection) :
    CollectionOp → ProposalsCollection × List FeedbackAction
  | .newScored entry id =>
    match c.newScored entry id with
    | .error _ => (c, [])
    | .ok r => r
  | .decide => c.decide

/-- Run a sequence of collection operations, concatenating emitted
feedback. -/
def ProposalsCollection.runOps (c : ProposalsCollection) :
    List CollectionOp → ProposalsCollection × List FeedbackAction
  | [] => (c, [])
  | op :: rest =>
    let (c1, fb1) := c.applyOp op
    let (c2, fb2) := c1.runOps rest
    (c2, fb1 ++ fb2)

/-- Number of `Accept` actions in a feedback list. -/
def countAccepts (actions : List FeedbackAction) : ℕ :=
  (actions.filter fun a => match a with | .accept _ => true | _ => false).length

/-! ## The composite negotiator (`src/composite.rs`) -/

/-- Dotted-path key join used by property flattening. -/
def joinKey : Option String → String → String
  | none, k => k
  | some path, k => path ++ "." ++ k

mutual

/-- Modelled from the spec: `ya_agreement_utils::agreement::flatten`
(its defining file is not among the sources; spec section 3 describes the
flatten/expand pair between dotted-path and nested property form).
Nested objects are joined with dots into flat keys; leaves are kept. -/
def flattenAt : Option String → Json → List (String × Json)
  | path, .obj fields => flattenFields path fields
  | none, v => [("", v)]
  | some path, v => [(path, v)]

def flattenFields : Option String → List (String × Json) → List (String × Json)
  | _, [] => []
  | path, (k, v) :: rest => flattenAt (some (joinKey path k)) v ++ flattenFields path rest

end

/-- `ya_client_model::market::NewProposal`: flattened properties plus
constraints. -/
structure NewProposal where
  properties : Json
  constraints : String

/-- `impl From<ProposalView> for NewProposal`
(`agreement-utils/src/proposal.rs`, lines 82-89). -/
def ProposalView.toNewProposal (p : ProposalView) : NewProposal :=
  { properties := .obj (flattenAt none p.content.properties)
    constraints := p.content.constraints }

/-- `ProposalAction` (`src/negotiators.rs`). -/
inductive ProposalAction where
  | counterProposal (id : String) (subscriptionId : String) (proposal : NewProposal) :
      ProposalAction
  | acceptProposal (id : String) (subscriptionId : String) : ProposalAction
  | rejectProposal (subscriptionId : String) (id : String) (reason : Option Reason) :
      ProposalAction

/-- `AgreementAction` (`src/negotiators.rs`). -/
inductive AgreementAction where
  | approveAgreement (id : String) (subscriptionId : String) : AgreementAction
  | rejectAgreement (id : String) (subscriptionId : String) (reason : Option Reason) :
      AgreementAction

/-- `Negotiator::process_proposal_result` (`composite.rs`, lines 171-224).
The `self.proposals` collection is threaded explicitly; channel sends are
returned as action lists (proposal channel, collection feedback). -/
def processProposalResult (proposals : ProposalsCollection)
    (result : Except String NegotiationResult) (subscriptionId : String)
    (their : ProposalView) :
    Except String (ProposalsCollection × List ProposalAction × List FeedbackAction) :=
  match result with
  | .error e => .error e
  | .ok (.reject reason isFinal) =>
    .ok (proposals,
      [.rejectProposal subscriptionId their.id (some ((reason.finalFlag isFinal).toReason))],
      [])
  | .ok (.ready our score) =>
    match their.state with
    | .initial =>
      .ok (proposals, [.counterProposal their.id subscriptionId our.toNewProposal], [])
    | .draft =>
      match proposals.newScored
          { their := their, our := our,
            score := score.finalScoreOrDefault "/final-score" } their.id with
      | .error e => .error e
      | .ok (c, fb) => .ok (c, [], fb)
    | _ => .ok (proposals, [], [])
  | .ok (.negotiating our _) =>
    .ok (proposals, [.counterProposal their.id subscriptionId our.toNewProposal], [])

/-- The exact reject message used on the `Negotiating` agreement path
(written without an apostrophe literal). -/
def negotiationsNotFinishedMsg : String :=
  "Negotiations aren" ++ String.mk [Char.ofNat 39] ++ "t finished."

/-- `Negotiator::process_agreement_result` (`composite.rs`, lines 226-266). -/
def processAgreementResult (agreements : ProposalsCollection)
    (result : Except String NegotiationResult) (subscriptionId : String)
    (agreementId : String) (their : ProposalView) :
    Except String (ProposalsCollection × List AgreementAction × List FeedbackAction) :=
  match result with
  | .error e => .error e
  | .ok (.ready proposal score) =>
    match agreements.newScored
        { their := their, our := proposal,
          score := score.finalScoreOrDefault "/final-score" } agreementId with
    | .error e => .error e
    | .ok (c, fb) => .ok (c, [], fb)
  | .ok (.reject reason isFinal) =>
    .ok (agreements,
      [.rejectAgreement agreementId subscriptionId
        (some ((reason.finalFlag isFinal).toReason))],
      [])
  | .ok (.negotiating _ _) =>
    .ok (agreements,
      [.rejectAgreement agreementId subscriptionId
        (some (((RejectReason.new negotiationsNotFinishedMsg).finalFlag true).toReason))],
      [])

/-! ## `MaxAgreements` (`builtin-negotiators/src/max_agreements.rs`) -/

/-- `MaxAgreements` state: the active agreement id set and the configured
limit (a `u32`; the claims never exercise values outside `ℕ`). -/
structure MaxAgreements where
  activeAgreements : Finset String
  maxAgreements : ℕ

/-- `MaxAgreements::has_free_slot`. -/
def MaxAgreements.hasFreeSlot (m : MaxAgreements) : Bool :=
  m.activeAgreements.card < m.maxAgreements

/-- `MaxAgreements::negotiate_step` (lines 46-71): pass the template and
score through unchanged when a slot is free, else a non-final reject.
`&mut self` never mutates here, so only the result is returned. -/
def MaxAgreements.negotiateStep (m : MaxAgreements) (_demand : ProposalView)
    (offer : ProposalView) (score : Score) : Except String NegotiationResult :=
  .ok <|
    if m.hasFreeSlot then
      .ready offer score
    else
      .reject
        (RejectReason.new
          ("No capacity available. Reached Agreements limit: " ++ toString m.maxAgreements))
        false

/-- `MaxAgreements::on_agreement_terminated` (lines 73-83): remove the id.
(The subsequent `free_slots` computation only feeds a log line and is not
modelled.) -/
def MaxAgreements.onAgreementTerminated (m : MaxAgreements) (agreementId : String) :
    MaxAgreements :=
  { m with activeAgreements := m.activeAgreements.erase agreementId }

/-- `MaxAgreements::on_agreement_approved` (lines 85-96): insert the
agreement id in both branches; error exactly when no slot was free before
the insertion.  The `AgreementView` argument is reduced to its id. -/
def MaxAgreements.onAgreementApproved (m : MaxAgreements) (agreementId : String) :
    MaxAgreements × Except String Unit :=
  let inserted := { m with activeAgreements := insert agreementId m.activeAgreements }
  if m.hasFreeSlot then
    (inserted, .ok ())
  else
    (inserted,
      .error ("Agreement [" ++ agreementId ++ "] approved despite not available capacity."))

/-! ## `LimitExpiration` (`builtin-negotiators/src/expiration.rs`)

This file is an older revision than `chain.rs`: its `NegotiatorComponent`
trait takes no score and its `Reject` variant carries only an optional
`ya_client_model` `Reason` and no `is_final` flag.  The result type is
embedded as used there.  Reject messages are kept as tagged payloads
because their exact renderings (a chrono timestamp display, a serde error
display) are produced by external crates. -/

/-- Failure cases of `proposal_expiration_from` (lines 35-43). -/
inductive ExpirationError where
  /-- "Missing expiration key in Proposal" -/
  | missingKey : ExpirationError
  /-- `serde_json::from_value::<i64>` failed on the value at the key. -/
  | notI64 : ExpirationError
deriving DecidableEq

/-- Reject message payloads of `LimitExpiration::negotiate_step`. -/
inductive ExpirationMessage where
  | fromError (e : ExpirationError) : ExpirationMessage
  /-- "Proposal expires at: {} which is less than 5 min or more than
  30 min from now", with the out-of-bounds expiration. -/
  | expiresOutOfBounds (expiration : ℤ) : ExpirationMessage
deriving DecidableEq

/-- `ya_client_model::market::Reason` as built by `Reason::new` in this
revision: a message and an empty extra object. -/
structure ExpReason where
  message : ExpirationMessage
  extra : List (String × Json)

/-- The `NegotiationResult` of the revision `expiration.rs` compiles
against (its `component.rs` is not among the sources; the shape is fixed
by the use sites in `expiration.rs`: `Ready { offer }` and
`Reject { reason: Option<Reason> }`). -/
inductive ExpNegotiationResult where
  | ready (offer : ProposalView) : ExpNegotiationResult
  | reject (reason : Option ExpReason) : ExpNegotiationResult

/-- `proposal_expiration_from` (lines 35-43): read
`/golem/srv/comp/expiration` and deserialize it as an `i64`;
`Utc.timestamp_millis` keeps the value as milliseconds since epoch, which
the model carries directly. -/
def proposalExpirationFrom (proposal : ProposalView) : Except ExpirationError ℤ :=
  match proposal.pointer "/golem/srv/comp/expiration" with
  | none => .error .missingKey
  | some v =>
    match v.asI64 with
    | none => .error .notI64
    | some timestamp => .ok timestamp

/-- `LimitExpiration::negotiate_step` (lines 46-73).  The two
`Utc::now()` reads (microseconds apart in the source) are modelled by a
single `now` parameter, in milliseconds since epoch. -/
def limitExpirationStep (minExpiration maxExpiration : ℤ) (now : ℤ)
    (demand offer : ProposalView) : ExpNegotiationResult :=
  let minExp := now + minExpiration
  let maxExp := now + maxExpiration
  match proposalExpirationFrom demand with
  | .error e => .reject (some { message := .fromError e, extra := [] })
  | .ok expiration =>
    if expiration > maxExp ∨ expiration < minExp then
      .reject (some { message := .expiresOutOfBounds expiration, extra := [] })
    else
      .ready offer

/-! ## Chain component naming (`chain.rs`, `add_component`, lines 29-49)

The Rust loop renames a colliding component name: a trailing `#<digits>`
suffix (regex `#(?P<idx>[0-9]+)\z`, digits parsed as `u32`) is replaced by
the incremented index, any other colliding name gets `#1` appended, and the
loop repeats until the name is unused.  The unbounded `while` loop is
embedded with explicit fuel; `resolveName_fresh` below shows that
`used.length + 2` fuel suffices whenever fewer than `2^32` names are in
use, so the fueled function computes the loop's result there.  The index
increment is `u32` arithmetic and wraps modulo `2^32` (as release Rust
does; debug Rust panics at `u32::MAX`), so with all `2^32` suffixed
variants of a stem in use the source loop would not terminate. -/

/-- Decimal digit character (values ten and above never occur). -/
def digitChar : ℕ → Char
  | 0 => '0'
  | 1 => '1'
  | 2 => '2'
  | 3 => '3'
  | 4 => '4'
  | 5 => '5'
  | 6 => '6'
  | 7 => '7'
  | 8 => '8'
  | 9 => '9'
  | _ => '*' 

/-- Decimal rendering with fuel (each division by ten shrinks the
argument, so `n + 1` fuel always suffices; see `natDigitsGo_fuel`). -/
def natDigitsGo : ℕ → ℕ → List Char
  | 0, _ => []
  | fuel + 1, n =>
    if n < 10 then [digitChar n] else natDigitsGo fuel (n / 10) ++ [digitChar (n % 10)]

/-- Decimal rendering of a natural number (no leading zeros), as produced
by Rust's `format!` for the incremented index. -/
def natDigits (n : ℕ) : List Char :=
  natDigitsGo (n + 1) n

/-- Value of a decimal digit string (as `u32::from_str` computes it;
leading zeros allowed). -/
def parseDigits (ds : List Char) : ℕ :=
  ds.foldl (fun acc c => 10 * acc + (c.toNat - 48)) 0

/-- Split a trailing `#<digits>` suffix off a character list: the maximal
final run of ASCII digits, which must be nonempty and preceded by `#`.
This matches where the regex `#(?P<idx>[0-9]+)\z` matches. -/
def stripNumCore (cs : List Char) : Option (List Char × List Char) :=
  let rcs := cs.reverse
  let ds := rcs.takeWhile Char.isDigit
  if ds.isEmpty then none
  else
    match rcs.drop ds.length with
    | '#' :: rest => some (rest.reverse, ds.reverse)
    | _ => none

/-- Regex capture plus `parse::<u32>`: the stem before `#` and the parsed
index; `none` when there is no trailing `#<digits>` suffix or the digits
overflow `u32` (both fall through to the append branch in the source). -/
def stripU32 (s : String) : Option (String × ℕ) :=
  match stripNumCore s.data with
  | none => none
  | some (stem, ds) =>
    if parseDigits ds ≤ 4294967295 then some (⟨stem⟩, parseDigits ds) else none

/-- A stem with a canonical decimal suffix: the shape every renamed
candidate has. -/
def mkName (stem : String) (k : ℕ) : String :=
  stem ++ "#" ++ ⟨natDigits k⟩

/-- One iteration of the renaming loop body: increment a trailing index
(`re.replace(&name, ...)`) or append `#1`.  The increment `idx + 1` is on
`u32`, so it is taken modulo `2^32`: a parsed index of exactly
`u32::MAX` wraps to `#0` (release builds wrap; debug builds panic). -/
def stepName (name : String) : String :=
  match stripU32 name with
  | some (stem, idx) => mkName stem ((idx + 1) % 4294967296)
  | none => name ++ "#1"

/-- Iterated renaming steps (proof device for the termination bound of
the renaming loop). -/
def stepIter (j : ℕ) (name : String) : String :=
  stepName^[j] name

/-- The renaming `while` loop with fuel: repeat `stepName` while the
candidate collides with a used name. -/
def resolveName (used : List String) : ℕ → String → String
  | 0, name => name
  | fuel + 1, name =>
    if name ∈ used then resolveName used fuel (stepName name) else name

/-- `NegotiatorsChainImpl::add_component` restricted to the name list:
push the resolved (collision-free) name.  The fuel `used.length + 2` is
sufficient by `resolveName_fresh`. -/
def addComponentName (names : List String) (name : String) : List String :=
  names ++ [resolveName names (names.length + 2) name]

/-- The component names of `NegotiatorsChain::with(components)`: fold
`add_component` over the supplied names. -/
def chainNames (names : List String) : List String :=
  names.foldl addComponentName []

/-! ## Order predicates for the collection invariants -/

/-- `a` scores at least as high as `b` under `partial_cmp` (both operands
are necessarily non-NaN when this holds). -/
def F64.ge (a b : F64) : Prop :=
  a.pcmp b = some .gt ∨ a.pcmp b = some .eq

/-- Descending score order, the shape `ProposalsCollection` keeps its
buffers in. -/
def sortedDesc (l : List ProposalScore) : Prop :=
  ∀ i j (hi : i < l.length) (hj : j < l.length), i < j →
    F64.ge (l.get ⟨i, hi⟩).score (l.get ⟨j, hj⟩).score

/-- No stored entry has a NaN score. -/
def noNaNScores (l : List ProposalScore) : Prop :=
  ∀ p ∈ l, p.score.isNan = false

/-- The collection invariant preserved by every operation. -/
def CollectionInv (c : ProposalsCollection) : Prop :=
  sortedDesc c.awaiting ∧ sortedDesc c.rejected ∧
    noNaNScores c.awaiting ∧ noNaNScores c.rejected

/-! ## Concrete sample values (used by witnesses and counterexamples) -/

/-- A minimal offer template. -/
def sampleTemplate : OfferTemplate :=
  { properties := .obj [], constraints := "()" }

/-- A minimal proposal view with a given id and state. -/
def samplePv (id : String) (state : ProposalState) : ProposalView :=
  { content := sampleTemplate, id := id, issuer := "node", state := state,
    timestamp := 0 }

/-- A scored draft proposal entry. -/
def sampleEntry (id : String) (score : F64) : ProposalScore :=
  { their := samplePv id .draft, our := samplePv id .draft, score := score }

/-- An empty proposal collection with the given goal. -/
def sampleCollection (goal : DecideGoal) : ProposalsCollection :=
  { awaiting := [], rejected := [], goal := goal, collectAmount := 5,
    collectionType := .proposal }

/-- A proposal view whose properties carry a numeric
`/golem/srv/comp/expiration` entry. -/
def samplePvWithExpiration (expiration : ℤ) : ProposalView :=
  { content :=
      { properties :=
          .obj [("golem", .obj [("srv", .obj [("comp",
            .obj [("expiration", .num (expiration : ℚ))])])])]
        constraints := "()" }
    id := "their", issuer := "node", state := .initial, timestamp := 0 }

/-- A score document whose `/final-score` entry is the given number. -/
def sampleScoreDoc (v : ℚ) : Score :=
  { properties := .obj [("final-score", .num v)], constraints := "" }

/-! # Theorems -/

/-- Once the `all_ready` flag is false, the fold can only end in
`Negotiating` (or a reject or error): running the remainder of the chain
with the flag cleared demotes a would-be `Ready` outcome. -/
theorem chainStepGo_false_eq_demote (inc : ProposalView) (cs : List (String × Component)) :
    ∀ t s, chainStepGo inc cs t s false = demoteReady (chainStepGo inc cs t s true) := by
  induction cs with
  | nil => intro t s; rfl
  | cons hd rest ih =>
    intro t s
    obtain ⟨nm, c⟩ := hd
    cases hres : c inc t s with
    | error e => simp [chainStepGo, hres, demoteReady]
    | ok r =>
      cases r with
      | ready p σ => simp only [chainStepGo, hres]; exact ih p σ
      | negotiating p σ =>
        simp only [chainStepGo, hres]
        rw [ih p σ]
        cases hgo : chainStepGo inc rest p σ true with
        | error e => rfl
        | ok rr => cases rr <;> rfl
      | reject rr ff => simp [chainStepGo, hres, demoteReady]

/-- C1: `chain.negotiate_step` is the left-to-right fold of the component
list.  The empty chain is `Ready` with the input pair; a cons chain first
calls the head component on the current `(their, template, score)` and
then: propagates an error, short-circuits a `Reject` unchanged, threads a
`Ready` result into the remaining chain, and threads a `Negotiating`
result into the remaining chain while demoting its final `Ready` to
`Negotiating` (so the overall result is `Ready` exactly when every
component answered `Ready`, carrying the last `(template, score)`).
Moreover a rejecting component makes the result independent of every
later component: components after the reject are not called. -/
theorem chain_negotiate_step_fold (inc t : ProposalView) (s : Score)
    (nm : String) (c : Component) (cs : List (String × Component))
    (r : RejectReason) (f : Bool) :
    chainNegotiateStep [] inc t s = .ok (.ready t s) ∧
    chainNegotiateStep ((nm, c) :: cs) inc t s =
      (match c inc t s with
       | .error e => .error e
       | .ok (.ready p σ) => chainNegotiateStep cs inc p σ
       | .ok (.negotiating p σ) => demoteReady (chainNegotiateStep cs inc p σ)
       | .ok (.reject rr ff) => .ok (.reject rr ff)) ∧
    (c inc t s = .ok (.reject r f) →
      ∀ post : List (String × Component),
        chainNegotiateStep ((nm, c) :: post) inc t s = .ok (.reject r f)) := by
  refine ⟨rfl, ?_, ?_⟩
  · cases hres : c inc t s with
    | error e => simp [chainNegotiateStep, chainStepGo, hres]
    | ok rr =>
      cases rr with
      | ready p σ => simp [chainNegotiateStep, chainStepGo, hres]
      | negotiating p σ =>
        simp only [chainNegotiateStep, chainStepGo, hres]
        exact chainStepGo_false_eq_demote inc cs p σ
      | reject rr ff => simp [chainNegotiateStep, chainStepGo, hres]
  · intro hrej post
    simp [chainNegotiateStep, chainStepGo, hrej]

/-- C1 witness: a two-component chain whose head rejects returns that
reject unchanged, whatever the second component would do. -/
theorem chain_negotiate_step_fold_witness :
    chainNegotiateStep
        [("rej", fun _ _ _ => .ok (.reject (RejectReason.new "no") true)),
         ("pass", fun _ t s => .ok (.ready t s))]
        (samplePv "x" .draft) (samplePv "y" .draft) sampleTemplate =
      .ok (.reject (RejectReason.new "no") true) :=
  (chain_negotiate_step_fold (samplePv "x" .draft) (samplePv "y" .draft) sampleTemplate
    "rej" (fun _ _ _ => .ok (.reject (RejectReason.new "no") true)) []
    (RejectReason.new "no") true).2.2 rfl [("pass", fun _ t s => .ok (.ready t s))]

/-- C9 (amended): `set_goal` adds a requested `Limit` onto a current
`Limit` with `usize` arithmetic — the sum is taken modulo `2^64` (release
builds wrap; debug builds panic on overflow), so the result is
`Limit(cur + req)` exactly when the sum fits in `usize` — and replaces
the goal in every other combination; the buffers are untouched. -/
theorem setGoal_spec (c : ProposalsCollection) (g : DecideGoal) :
    (∀ cur req, c.goal = .limit cur → g = .limit req →
      (c.setGoal g).goal = .limit ((cur + req) % 18446744073709551616)) ∧
    (∀ cur req, cur + req < 18446744073709551616 → c.goal = .limit cur →
      g = .limit req → (c.setGoal g).goal = .limit (cur + req)) ∧
    (∀ cur req, c.goal = .limit cur → g = .batch req →
      (c.setGoal g).goal = .batch req) ∧
    (∀ cur, c.goal = .batch cur → (c.setGoal g).goal = g) ∧
    (c.setGoal g).awaiting = c.awaiting ∧ (c.setGoal g).rejected = c.rejected := by
  refine ⟨?_, ?_, ?_, ?_, ?_, ?_⟩
  · intro cur req hc hg
    simp [ProposalsCollection.setGoal, hc, hg, Nat.add_comm]
  · intro cur req hlt hc hg
    have h1 : (c.setGoal g).goal = .limit ((cur + req) % 18446744073709551616) := by
      simp [ProposalsCollection.setGoal, hc, hg, Nat.add_comm]
    rw [h1, Nat.mod_eq_of_lt hlt]
  · intro cur req hc hg
    simp [ProposalsCollection.setGoal, hc, hg]
  · intro cur hc
    cases g <;> simp [ProposalsCollection.setGoal, hc]
  · cases hc : c.goal <;> cases g <;> simp [ProposalsCollection.setGoal, hc]
  · cases hc : c.goal <;> cases g <;> simp [ProposalsCollection.setGoal, hc]

/-- C9 witness: `Limit(2)` plus requested `Limit(3)` is `Limit(5)` (the
sum fits in `usize`), and a requested `Batch(7)` replaces a `Limit(2)`. -/
theorem setGoal_spec_witness :
    ((sampleCollection (.limit 2)).setGoal (.limit 3)).goal = .limit 5 ∧
    ((sampleCollection (.limit 2)).setGoal (.batch 7)).goal = .batch 7 :=
  ⟨(setGoal_spec (sampleCollection (.limit 2)) (.limit 3)).2.1 2 3 (by omega) rfl rfl,
   (setGoal_spec (sampleCollection (.limit 2)) (.batch 7)).2.2.1 2 7 rfl rfl⟩

/-- C9 counterexample to the unbounded reading: combining a current
`Limit(usize::MAX)` with a requested `Limit(2)` wraps to `Limit(1)`, not
to the unbounded sum `Limit(usize::MAX + 2)`. -/
theorem setGoal_wrap_counterexample :
    ((sampleCollection (.limit 18446744073709551615)).setGoal (.limit 2)).goal =
      .limit 1 ∧
    DecideGoal.limit 1 ≠ .limit (18446744073709551615 + 2) := by
  refine ⟨?_, ?_⟩
  · show DecideGoal.limit ((2 + 18446744073709551615) % 18446744073709551616) =
      .limit 1
    norm_num
  · intro h
    injection h with h2
    omega

/-- C8 (amended): `MaxAgreements::negotiate_step` returns a non-final
reject exactly when the active set has at least `max_agreements` elements,
with reason "No capacity available. Reached Agreements limit: max" (not
"Node is busy"); otherwise it passes template and score through unchanged.
`on_agreement_terminated` removes the id from the active set, after which
a full node can negotiate again. -/
theorem maxAgreements_spec (m : MaxAgreements) (demand offer : ProposalView)
    (score : Score) (id : String) :
    (m.activeAgreements.card ≥ m.maxAgreements →
      m.negotiateStep demand offer score =
        .ok (.reject (RejectReason.new
          ("No capacity available. Reached Agreements limit: " ++
            toString m.maxAgreements)) false)) ∧
    (m.activeAgreements.card < m.maxAgreements →
      m.negotiateStep demand offer score = .ok (.ready offer score)) ∧
    (m.onAgreementTerminated id).activeAgreements = m.activeAgreements.erase id ∧
    (id ∈ m.activeAgreements → m.activeAgreements.card = m.maxAgreements →
      (m.onAgreementTerminated id).negotiateStep demand offer score =
        .ok (.ready offer score)) := by
  refine ⟨?_, ?_, rfl, ?_⟩
  · intro hfull
    simp [MaxAgreements.negotiateStep, MaxAgreements.hasFreeSlot, Nat.not_lt.mpr hfull]
  · intro hfree
    simp [MaxAgreements.negotiateStep, MaxAgreements.hasFreeSlot, hfree]
  · intro hmem hcard
    have hpos : 0 < m.activeAgreements.card := Finset.card_pos.mpr ⟨id, hmem⟩
    have herase : (m.activeAgreements.erase id).card < m.maxAgreements := by
      rw [Finset.card_erase_of_mem hmem]
      omega
    simp [MaxAgreements.onAgreementTerminated, MaxAgreements.negotiateStep,
      MaxAgreements.hasFreeSlot, herase]

/-- C8 witness: with limit 1 and one active agreement the step rejects;
after terminating that agreement it is ready again. -/
theorem maxAgreements_spec_witness :
    MaxAgreements.negotiateStep ⟨{"a"}, 1⟩ (samplePv "t" .draft) (samplePv "o" .draft)
        sampleTemplate =
      .ok (.reject (RejectReason.new
        ("No capacity available. Reached Agreements limit: " ++ toString 1)) false) ∧
    (MaxAgreements.onAgreementTerminated ⟨{"a"}, 1⟩ "a").negotiateStep
        (samplePv "t" .draft) (samplePv "o" .draft) sampleTemplate =
      .ok (.ready (samplePv "o" .draft) sampleTemplate) :=
  ⟨(maxAgreements_spec ⟨{"a"}, 1⟩ (samplePv "t" .draft) (samplePv "o" .draft)
      sampleTemplate "a").1 (by decide),
   (maxAgreements_spec ⟨{"a"}, 1⟩ (samplePv "t" .draft) (samplePv "o" .draft)
      sampleTemplate "a").2.2.2 (by decide) (by decide)⟩

/-- C8 counterexample: the reject reason of a saturated `MaxAgreements`
is "No capacity available. Reached Agreements limit: 1", which is not the
"Node is busy" the claim states. -/
theorem maxAgreements_reason_counterexample :
    MaxAgreements.negotiateStep ⟨{"a"}, 1⟩ (samplePv "t" .draft) (samplePv "o" .draft)
        sampleTemplate =
      .ok (.reject
        (RejectReason.new "No capacity available. Reached Agreements limit: 1") false) ∧
    "No capacity available. Reached Agreements limit: 1" ≠ "Node is busy" := by
  exact ⟨rfl, by decide⟩

/-- C10: `on_agreement_approved` inserts the agreement id into the active
set in both branches; it errors exactly when no slot was free before the
call, so the state is mutated even on the error path, and a later
`on_agreement_terminated` for that id removes it. -/
theorem maxAgreements_onApproved_not_atomic (m : MaxAgreements) (id : String) :
    (m.onAgreementApproved id).1.activeAgreements = insert id m.activeAgreements ∧
    (m.activeAgreements.card ≥ m.maxAgreements →
      (m.onAgreementApproved id).2 =
        .error ("Agreement [" ++ id ++ "] approved despite not available capacity.")) ∧
    (m.activeAgreements.card < m.maxAgreements →
      (m.onAgreementApproved id).2 = .ok ()) ∧
    id ∉ ((m.onAgreementApproved id).1.onAgreementTerminated id).activeAgreements := by
  refine ⟨?_, ?_, ?_, ?_⟩
  · by_cases hfree : m.activeAgreements.card < m.maxAgreements <;>
      simp [MaxAgreements.onAgreementApproved, MaxAgreements.hasFreeSlot, hfree]
  · intro hfull
    simp [MaxAgreements.onAgreementApproved, MaxAgreements.hasFreeSlot,
      Nat.not_lt.mpr hfull]
  · intro hfree
    simp [MaxAgreements.onAgreementApproved, MaxAgreements.hasFreeSlot, hfree]
  · by_cases hfree : m.activeAgreements.card < m.maxAgreements <;>
      simp [MaxAgreements.onAgreementApproved, MaxAgreements.hasFreeSlot, hfree,
        MaxAgreements.onAgreementTerminated]

/-- C10 witness: approving agreement "b" on a saturated limit-1 negotiator
errors but still inserts "b", and terminating "b" removes it again. -/
theorem maxAgreements_onApproved_not_atomic_witness :
    (MaxAgreements.onAgreementApproved ⟨{"a"}, 1⟩ "b").1.activeAgreements =
      insert "b" {"a"} ∧
    (MaxAgreements.onAgreementApproved ⟨{"a"}, 1⟩ "b").2 =
      .error "Agreement [b] approved despite not available capacity." ∧
    "b" ∉ ((MaxAgreements.onAgreementApproved ⟨{"a"}, 1⟩ "b").1.onAgreementTerminated
      "b").activeAgreements :=
  ⟨(maxAgreements_onApproved_not_atomic ⟨{"a"}, 1⟩ "b").1,
   (maxAgreements_onApproved_not_atomic ⟨{"a"}, 1⟩ "b").2.1 (by decide),
   (maxAgreements_onApproved_not_atomic ⟨{"a"}, 1⟩ "b").2.2.2⟩

/-- Looking up the key just inserted by `insertField` yields the inserted
value. -/
theorem lookupField_insertField (fields : List (String × Json)) (key : String) (v : Json) :
    Json.lookupField (insertField fields key v) key = some v := by
  induction fields with
  | nil => simp [insertField, Json.lookupField]
  | cons hd rest ih =>
    obtain ⟨k, w⟩ := hd
    by_cases hk : k = key <;> simp [insertField, Json.lookupField, hk, ih]

/-- `final_flag` makes the finality marker of the resulting `Reason` equal
to the recorded flag. -/
theorem markedFinal_finalFlag (r : RejectReason) (f : Bool) :
    Reason.markedFinal ((r.finalFlag f).toReason) = f := by
  have h := lookupField_insertField r.extra "golem.proposal.rejection.is-final" (.bool f)
  cases f <;>
    simp [Reason.markedFinal, RejectReason.finalFlag, RejectReason.entry,
      RejectReason.toReason, h]

/-- The selection score read from a score document is always a finite
model value, in particular never NaN. -/
theorem finalScoreOrDefault_not_nan (s : Score) (path : String) :
    (s.finalScoreOrDefault path).isNan = false := by
  unfold OfferTemplate.finalScoreOrDefault
  cases h : s.properties.pointer path with
  | none => rfl
  | some v => cases v <;> rfl

/-- Window bounds of the embedded `binary_search_by` loop. -/
theorem binarySearchGo_bounds (f : ℕ → Ordering) :
    ∀ fuel left right, left ≤ right →
      (∀ m, binarySearchGo f fuel left right = .found m → left ≤ m ∧ m < right) ∧
      (∀ p, binarySearchGo f fuel left right = .notFound p → left ≤ p ∧ p ≤ right) := by
  intro fuel
  induction fuel with
  | zero =>
    intro left right h
    refine ⟨fun m hm => by simp [binarySearchGo] at hm, fun p hp => ?_⟩
    simp only [binarySearchGo, SearchResult.notFound.injEq] at hp
    omega
  | succ fuel ih =>
    intro left right h
    by_cases hlt : left < right
    · have hmid₂ : left + (right - left) / 2 < right := by omega
      cases hf : f (left + (right - left) / 2) with
      | lt =>
        have hrec := ih (left + (right - left) / 2 + 1) right (by omega)
        constructor
        · intro m hm
          simp only [binarySearchGo, if_pos hlt, hf] at hm
          have := hrec.1 m hm
          omega
        · intro p hp
          simp only [binarySearchGo, if_pos hlt, hf] at hp
          have := hrec.2 p hp
          omega
      | gt =>
        have hrec := ih left (left + (right - left) / 2) (by omega)
        constructor
        · intro m hm
          simp only [binarySearchGo, if_pos hlt, hf] at hm
          have := hrec.1 m hm
          omega
        · intro p hp
          simp only [binarySearchGo, if_pos hlt, hf] at hp
          have := hrec.2 p hp
          omega
      | eq =>
        constructor
        · intro m hm
          simp only [binarySearchGo, if_pos hlt, hf, SearchResult.found.injEq] at hm
          omega
        · intro p hp
          simp only [binarySearchGo, if_pos hlt, hf] at hp
          exact (SearchResult.noConfusion hp)
    · constructor
      · intro m hm
        simp only [binarySearchGo, if_neg hlt] at hm
        exact (SearchResult.noConfusion hm)
      · intro p hp
        simp only [binarySearchGo, if_neg hlt, SearchResult.notFound.injEq] at hp
        omega

/-- The index `insertSorted` inserts at never exceeds the list length, so
the insertion is a genuine `Vec::insert`. -/
theorem insertPos_le (l : List ProposalScore) (new : ProposalScore) :
    insertPos l new ≤ l.length := by
  have h := binarySearchGo_bounds
    (fun i => ((l.get? i).map (fun proposal => F64.cmpTotal new.score proposal.score)).getD .eq)
    l.length 0 l.length (Nat.zero_le _)
  unfold insertPos listBinarySearch
  split
  · next m hres =>
    have := h.1 m hres
    omega
  · next p hres =>
    have := h.2 p hres
    omega

/-- The inserted entry is a member of the insertion result, and existing
members persist. -/
theorem mem_insertSorted (l : List ProposalScore) (new x : ProposalScore) :
    x ∈ insertSorted l new ↔ x = new ∨ x ∈ l := by
  unfold insertSorted
  exact List.mem_insertIdx (insertPos_le l new)

/-- `new_scored` on a non-NaN score succeeds: it performs the sorted
insertion and emits `Decide(GoalReached)` when the buffer has reached the
collect amount. -/
theorem newScored_ok (c : ProposalsCollection) (new : ProposalScore) (id : String)
    (h : new.score.isNan = false) :
    c.newScored new id =
      .ok ({ c with awaiting := insertSorted c.awaiting new },
        if (insertSorted c.awaiting new).length ≥ c.collectAmount then
          [FeedbackAction.decide .goalReached]
        else []) := by
  rw [ProposalsCollection.newScored, if_neg (by simp [h])]

/-- A defined comparison means neither operand is NaN. -/
theorem F64.not_nan_of_pcmp {a b : F64} {o : Ordering} (h : a.pcmp b = some o) :
    a.isNan = false ∧ b.isNan = false := by
  cases a <;> cases b <;> simp_all [F64.pcmp, F64.isNan]

/-- On non-NaN operands, `pcmp` is `compare` through the order embedding. -/
theorem F64.pcmp_char {a b : F64} (ha : a.isNan = false) (hb : b.isNan = false) :
    a.pcmp b = some (compare a.toE b.toE) := by
  cases a <;> cases b <;> simp_all [F64.isNan] <;>
    simp only [F64.pcmp, F64.toE, Option.some.injEq]
  · exact (compare_eq_iff_eq.mpr rfl).symm
  · exact (compare_gt_iff_gt.mpr (WithBot.bot_lt_coe _)).symm
  · exact (compare_gt_iff_gt.mpr (WithBot.coe_lt_coe.mpr (WithTop.coe_lt_top _))).symm
  · exact (compare_lt_iff_lt.mpr (WithBot.bot_lt_coe _)).symm
  · exact (compare_eq_iff_eq.mpr rfl).symm
  · exact (compare_lt_iff_lt.mpr (WithBot.bot_lt_coe _)).symm
  · exact (compare_lt_iff_lt.mpr (WithBot.coe_lt_coe.mpr (WithTop.coe_lt_top _))).symm
  · exact (compare_gt_iff_gt.mpr (WithBot.bot_lt_coe _)).symm
  · rename_i qa qb
    rcases lt_trichotomy qa qb with hlt | heq | hgt
    · rw [if_pos hlt]
      exact (compare_lt_iff_lt.mpr
        (WithBot.coe_lt_coe.mpr (WithTop.coe_lt_coe.mpr hlt))).symm
    · subst heq
      rw [if_neg (lt_irrefl _), if_pos rfl]
      exact (compare_eq_iff_eq.mpr rfl).symm
    · rw [if_neg (not_lt_of_gt hgt), if_neg (ne_of_gt hgt)]
      exact (compare_gt_iff_gt.mpr
        (WithBot.coe_lt_coe.mpr (WithTop.coe_lt_coe.mpr hgt))).symm

/-- `pcmp` yields `lt` exactly when the embedding decreases. -/
theorem F64.pcmp_lt_iff {a b : F64} (ha : a.isNan = false) (hb : b.isNan = false) :
    a.pcmp b = some .lt ↔ a.toE < b.toE := by
  rw [F64.pcmp_char ha hb, Option.some.injEq, compare_lt_iff_lt]

/-- `pcmp` yields `eq` exactly when the embeddings agree. -/
theorem F64.pcmp_eq_iff {a b : F64} (ha : a.isNan = false) (hb : b.isNan = false) :
    a.pcmp b = some .eq ↔ a.toE = b.toE := by
  rw [F64.pcmp_char ha hb, Option.some.injEq, compare_eq_iff_eq]

/-- `pcmp` yields `gt` exactly when the embedding increases. -/
theorem F64.pcmp_gt_iff {a b : F64} (ha : a.isNan = false) (hb : b.isNan = false) :
    a.pcmp b = some .gt ↔ b.toE < a.toE := by
  rw [F64.pcmp_char ha hb, Option.some.injEq, compare_gt_iff_gt]

/-- Operands in `ge` are never NaN. -/
theorem F64.ge_not_nan {a b : F64} (h : F64.ge a b) :
    a.isNan = false ∧ b.isNan = false := by
  rcases h with h | h <;> exact F64.not_nan_of_pcmp h

/-- `ge` through the order embedding. -/
theorem F64.ge_iff_toE {a b : F64} (ha : a.isNan = false) (hb : b.isNan = false) :
    F64.ge a b ↔ b.toE ≤ a.toE := by
  unfold F64.ge
  rw [F64.pcmp_gt_iff ha hb, F64.pcmp_eq_iff ha hb]
  constructor
  · rintro (h | h)
    · exact le_of_lt h
    · exact le_of_eq h.symm
  · intro h
    rcases lt_or_eq_of_le h with h | h
    · exact Or.inl h
    · exact Or.inr h.symm

/-- `ge` is transitive. -/
theorem F64.ge_trans {a b c : F64} (hab : F64.ge a b) (hbc : F64.ge b c) :
    F64.ge a c := by
  obtain ⟨ha, hb⟩ := F64.ge_not_nan hab
  obtain ⟨_, hc⟩ := F64.ge_not_nan hbc
  rw [F64.ge_iff_toE ha hb] at hab
  rw [F64.ge_iff_toE hb hc] at hbc
  rw [F64.ge_iff_toE ha hc]
  exact le_trans hbc hab

/-- Whoever compares below `b` is below everything at least `b`. -/
theorem F64.lt_of_lt_of_ge {a b c : F64} (h : a.pcmp b = some .lt) (hcb : F64.ge c b) :
    a.pcmp c = some .lt := by
  obtain ⟨ha, hb⟩ := F64.not_nan_of_pcmp h
  obtain ⟨hc, _⟩ := F64.ge_not_nan hcb
  rw [F64.pcmp_lt_iff ha hb] at h
  rw [F64.ge_iff_toE hc hb] at hcb
  rw [F64.pcmp_lt_iff ha hc]
  exact lt_of_lt_of_le h hcb

/-- Whoever compares above `b` is above everything at most `b`. -/
theorem F64.gt_of_gt_of_ge {a b c : F64} (h : a.pcmp b = some .gt) (hbc : F64.ge b c) :
    a.pcmp c = some .gt := by
  obtain ⟨ha, hb⟩ := F64.not_nan_of_pcmp h
  obtain ⟨_, hc⟩ := F64.ge_not_nan hbc
  rw [F64.pcmp_gt_iff ha hb] at h
  rw [F64.ge_iff_toE hb hc] at hbc
  rw [F64.pcmp_gt_iff ha hc]
  exact lt_of_le_of_lt hbc h

/-- Replace the right operand of `ge` by an equal value. -/
theorem F64.ge_of_ge_of_eq {x new b : F64} (hxb : F64.ge x b) (h : new.pcmp b = some .eq) :
    F64.ge x new := by
  obtain ⟨hx, hb⟩ := F64.ge_not_nan hxb
  obtain ⟨hn, _⟩ := F64.not_nan_of_pcmp h
  rw [F64.pcmp_eq_iff hn hb] at h
  rw [F64.ge_iff_toE hx hb] at hxb
  rw [F64.ge_iff_toE hx hn, h]
  exact hxb

/-- Replace the left operand of `ge` by an equal value. -/
theorem F64.ge_of_eq_of_ge {new b y : F64} (h : new.pcmp b = some .eq) (hby : F64.ge b y) :
    F64.ge new y := by
  obtain ⟨hn, hb⟩ := F64.not_nan_of_pcmp h
  obtain ⟨_, hy⟩ := F64.ge_not_nan hby
  rw [F64.pcmp_eq_iff hn hb] at h
  rw [F64.ge_iff_toE hb hy] at hby
  rw [F64.ge_iff_toE hn hy, h]
  exact hby

/-- A strict comparison flips into `ge`. -/
theorem F64.ge_flip_of_lt {a b : F64} (h : a.pcmp b = some .lt) : F64.ge b a := by
  obtain ⟨ha, hb⟩ := F64.not_nan_of_pcmp h
  rw [F64.pcmp_lt_iff ha hb] at h
  rw [F64.ge_iff_toE hb ha]
  exact le_of_lt h

/-- An equal comparison flips into `ge`. -/
theorem F64.ge_flip_of_eq {a b : F64} (h : a.pcmp b = some .eq) : F64.ge b a := by
  obtain ⟨ha, hb⟩ := F64.not_nan_of_pcmp h
  rw [F64.pcmp_eq_iff ha hb] at h
  rw [F64.ge_iff_toE hb ha, h]

/-- An equal comparison gives `ge` directly. -/
theorem F64.ge_of_eq {a b : F64} (h : a.pcmp b = some .eq) : F64.ge a b :=
  Or.inr h

/-- On non-NaN operands the unwrapped comparison is the defined one. -/
theorem F64.pcmp_eq_cmpTotal {a b : F64} (ha : a.isNan = false) (hb : b.isNan = false) :
    a.pcmp b = some (a.cmpTotal b) := by
  rw [F64.cmpTotal, F64.pcmp_char ha hb]
  rfl

/-- Invariant of the embedded `binary_search_by` loop: with a comparator
that is monotone over the (sorted) list, a found index compares equal and
a not-found index splits the range into a strictly-below front and a
strictly-above back. -/
theorem binarySearchGo_invariant (f : ℕ → Ordering) (n : ℕ)
    (hMono : ∀ i j, i ≤ j → j < n →
      (f j = .lt → f i = .lt) ∧ (f i = .gt → f j = .gt)) :
    ∀ fuel left right, right ≤ n → right - left ≤ fuel →
      (∀ i, i < left → f i = .lt) → (∀ i, right ≤ i → i < n → f i = .gt) →
      (∀ m, binarySearchGo f fuel left right = .found m → m < n ∧ f m = .eq) ∧
      (∀ p, binarySearchGo f fuel left right = .notFound p →
        (∀ i, i < p → f i = .lt) ∧ (∀ i, p ≤ i → i < n → f i = .gt)) := by
  intro fuel
  induction fuel with
  | zero =>
    intro left right hrn hfuel hL hR
    constructor
    · intro m hm
      simp [binarySearchGo] at hm
    · intro p hp
      simp only [binarySearchGo, SearchResult.notFound.injEq] at hp
      subst hp
      exact ⟨hL, fun i hi hin => hR i (by omega) hin⟩
  | succ fuel ih =>
    intro left right hrn hfuel hL hR
    by_cases hlt : left < right
    · have hmid₁ : left ≤ left + (right - left) / 2 := Nat.le_add_right _ _
      have hmid₂ : left + (right - left) / 2 < right := by omega
      have hmidn : left + (right - left) / 2 < n := by omega
      cases hf : f (left + (right - left) / 2) with
      | lt =>
        have hL2 : ∀ i, i < left + (right - left) / 2 + 1 → f i = .lt := by
          intro i hi
          by_cases hil : i < left
          · exact hL i hil
          · exact (hMono i (left + (right - left) / 2) (by omega) hmidn).1 hf
        have hrec := ih (left + (right - left) / 2 + 1) right hrn (by omega) hL2 hR
        constructor
        · intro m hm
          simp only [binarySearchGo, if_pos hlt, hf] at hm
          exact hrec.1 m hm
        · intro p hp
          simp only [binarySearchGo, if_pos hlt, hf] at hp
          exact hrec.2 p hp
      | gt =>
        have hR2 : ∀ i, left + (right - left) / 2 ≤ i → i < n → f i = .gt := by
          intro i hi hin
          by_cases hir : right ≤ i
          · exact hR i hir hin
          · exact (hMono (left + (right - left) / 2) i hi hin).2 hf
        have hrec := ih left (left + (right - left) / 2) (by omega) (by omega) hL hR2
        constructor
        · intro m hm
          simp only [binarySearchGo, if_pos hlt, hf] at hm
          exact hrec.1 m hm
        · intro p hp
          simp only [binarySearchGo, if_pos hlt, hf] at hp
          exact hrec.2 p hp
      | eq =>
        constructor
        · intro m hm
          simp only [binarySearchGo, if_pos hlt, hf, SearchResult.found.injEq] at hm
          subst hm
          exact ⟨hmidn, hf⟩
        · intro p hp
          simp only [binarySearchGo, if_pos hlt, hf] at hp
          exact (SearchResult.noConfusion hp)
    · constructor
      · intro m hm
        simp only [binarySearchGo, if_neg hlt] at hm
        exact (SearchResult.noConfusion hm)
      · intro p hp
        simp only [binarySearchGo, if_neg hlt, SearchResult.notFound.injEq] at hp
        subst hp
        exact ⟨hL, fun i hi hin => hR i (by omega) hin⟩

/-- The comparator used by `insertSorted`, applied inside the list range,
is the unwrapped score comparison against the corresponding element. -/
theorem searchComparator_in_range (l : List ProposalScore) (new : ProposalScore)
    (i : ℕ) (hi : i < l.length) :
    ((l.get? i).map (fun proposal => F64.cmpTotal new.score proposal.score)).getD .eq =
      F64.cmpTotal new.score (l.get ⟨i, hi⟩).score := by
  rw [List.get?_eq_get hi]
  rfl

/-- Position property of the insertion index: everything before it scores
at least the new entry, everything from it on scores at most the new
entry. -/
theorem insertPos_spec (l : List ProposalScore) (new : ProposalScore)
    (hs : sortedDesc l) (hn : noNaNScores l) (hnew : new.score.isNan = false) :
    (∀ i (hi : i < l.length), i < insertPos l new →
      F64.ge (l.get ⟨i, hi⟩).score new.score) ∧
    (∀ i (hi : i < l.length), insertPos l new ≤ i →
      F64.ge new.score (l.get ⟨i, hi⟩).score) := by
  have hpcmp : ∀ i (hi : i < l.length),
      new.score.pcmp (l.get ⟨i, hi⟩).score =
        some (((l.get? i).map
          (fun proposal => F64.cmpTotal new.score proposal.score)).getD .eq) := by
    intro i hi
    rw [searchComparator_in_range l new i hi]
    exact F64.pcmp_eq_cmpTotal hnew (hn _ (l.get_mem _ _))
  have hMono : ∀ i j, i ≤ j → j < l.length →
      ((((l.get? j).map
        (fun proposal => F64.cmpTotal new.score proposal.score)).getD .eq) = .lt →
        (((l.get? i).map
          (fun proposal => F64.cmpTotal new.score proposal.score)).getD .eq) = .lt) ∧
      ((((l.get? i).map
        (fun proposal => F64.cmpTotal new.score proposal.score)).getD .eq) = .gt →
        (((l.get? j).map
          (fun proposal => F64.cmpTotal new.score proposal.score)).getD .eq) = .gt) := by
    intro i j hij hj
    have hi : i < l.length := lt_of_le_of_lt hij hj
    rcases Nat.lt_or_ge i j with hlt | hge
    · have hgeij : F64.ge (l.get ⟨i, hi⟩).score (l.get ⟨j, hj⟩).score :=
        hs i j hi hj hlt
      constructor
      · intro hfj
        have hj2 : new.score.pcmp (l.get ⟨j, hj⟩).score = some .lt := by
          rw [hpcmp j hj, hfj]
        have := F64.lt_of_lt_of_ge hj2 hgeij
        have h3 := hpcmp i hi
        rw [this] at h3
        exact (Option.some.injEq _ _ ▸ h3).symm
      · intro hfi
        have hi2 : new.score.pcmp (l.get ⟨i, hi⟩).score = some .gt := by
          rw [hpcmp i hi, hfi]
        have := F64.gt_of_gt_of_ge hi2 hgeij
        have h3 := hpcmp j hj
        rw [this] at h3
        exact (Option.some.injEq _ _ ▸ h3).symm
    · have hij2 : i = j := le_antisymm hij hge
      subst hij2
      exact ⟨id, id⟩
  have hinv := binarySearchGo_invariant _ l.length hMono l.length 0 l.length
    (le_refl _) (by omega) (fun i hi => absurd hi (Nat.not_lt_zero i))
    (fun i hi hin => absurd hin (by omega))
  unfold insertPos listBinarySearch
  split
  · next m hres =>
    obtain ⟨hmn, hmeq⟩ := hinv.1 m hres
    have hmeq2 : new.score.pcmp (l.get ⟨m, hmn⟩).score = some .eq := by
      rw [hpcmp m hmn, hmeq]
    constructor
    · intro i hi hip
      rcases Nat.lt_or_ge i m with him | him
      · exact F64.ge_of_ge_of_eq (hs i m hi hmn him) hmeq2
      · have : i = m := by omega
        subst this
        exact F64.ge_flip_of_eq hmeq2
    · intro i hi hip
      have him : m < i := by omega
      exact F64.ge_of_eq_of_ge hmeq2 (hs m i hmn hi him)
  · next p hres =>
    obtain ⟨hfront, hback⟩ := hinv.2 p hres
    constructor
    · intro i hi hip
      have : new.score.pcmp (l.get ⟨i, hi⟩).score = some .lt := by
        rw [hpcmp i hi, hfront i hip]
      exact F64.ge_flip_of_lt this
    · intro i hi hip
      have : new.score.pcmp (l.get ⟨i, hi⟩).score = some .gt := by
        rw [hpcmp i hi, hback i hip hi]
      exact Or.inl this

/-- Sorted insertion preserves descending order. -/
theorem insertSorted_sortedDesc (l : List ProposalScore) (new : ProposalScore)
    (hs : sortedDesc l) (hn : noNaNScores l) (hnew : new.score.isNan = false) :
    sortedDesc (insertSorted l new) := by
  have hple := insertPos_le l new
  have hpos := insertPos_spec l new hs hn hnew
  intro i j hi hj hij
  have hlen : (insertSorted l new).length = l.length + 1 := by
    unfold insertSorted
    exact List.length_insertIdx _ _ hple
  have hi' : i < l.length + 1 := by omega
  have hj' : j < l.length + 1 := by omega
  have hgetlt : ∀ k (hk : k < (insertSorted l new).length), k < insertPos l new →
      ∃ hk2 : k < l.length, (insertSorted l new).get ⟨k, hk⟩ = l.get ⟨k, hk2⟩ := by
    intro k hk hkp
    have hk2 : k < l.length := by omega
    refine ⟨hk2, ?_⟩
    simp only [List.get_eq_getElem]
    exact List.getElem_insertIdx_of_lt l new _ k hkp hk2
  have hgetself : ∀ hk : insertPos l new < (insertSorted l new).length,
      (insertSorted l new).get ⟨insertPos l new, hk⟩ = new := by
    intro hk
    simp only [List.get_eq_getElem]
    exact List.getElem_insertIdx_self l new _ hple
  have hgetgt : ∀ k (hk : k < (insertSorted l new).length), insertPos l new < k →
      ∃ hk2 : k - 1 < l.length, (insertSorted l new).get ⟨k, hk⟩ = l.get ⟨k - 1, hk2⟩ := by
    intro k hk hkp
    obtain ⟨d, rfl⟩ : ∃ d, k = insertPos l new + d + 1 :=
      ⟨k - insertPos l new - 1, by omega⟩
    have hin : insertPos l new + d < l.length := by omega
    refine ⟨by omega, ?_⟩
    simp only [List.get_eq_getElem]
    have h := List.getElem_insertIdx_add_succ l new (insertPos l new) d hin
    simpa [Nat.add_sub_cancel] using h
  by_cases hjp : j < insertPos l new
  · obtain ⟨hi2, ei⟩ := hgetlt i hi (by omega)
    obtain ⟨hj2, ej⟩ := hgetlt j hj hjp
    rw [ei, ej]
    exact hs i j hi2 hj2 hij
  · by_cases hip : i < insertPos l new
    · by_cases hjeq : j = insertPos l new
      · subst hjeq
        obtain ⟨hi2, ei⟩ := hgetlt i hi hip
        rw [ei, hgetself hj]
        exact hpos.1 i hi2 hip
      · obtain ⟨hi2, ei⟩ := hgetlt i hi hip
        obtain ⟨hj2, ej⟩ := hgetgt j hj (by omega)
        rw [ei, ej]
        exact hs i (j - 1) hi2 hj2 (by omega)
    · by_cases hieq : i = insertPos l new
      · subst hieq
        obtain ⟨hj2, ej⟩ := hgetgt j hj (by omega)
        rw [hgetself hi, ej]
        exact hpos.2 (j - 1) hj2 (by omega)
      · obtain ⟨hi2, ei⟩ := hgetgt i hi (by omega)
        obtain ⟨hj2, ej⟩ := hgetgt j hj (by omega)
        rw [ei, ej]
        exact hs (i - 1) (j - 1) hi2 hj2 (by omega)

/-- Sorted insertion introduces no NaN score. -/
theorem insertSorted_noNaN (l : List ProposalScore) (new : ProposalScore)
    (hn : noNaNScores l) (hnew : new.score.isNan = false) :
    noNaNScores (insertSorted l new) := by
  intro x hx
  rcases (mem_insertSorted l new x).mp hx with h | h
  · subst h
    exact hnew
  · exact hn x h

/-- C2: dispatch of a chain result for a proposal: a reject emits
`RejectProposal` carrying the reason with the finality marker set to the
chain flag; a ready result on an `Initial` proposal is countered anyway;
a ready result on a `Draft` proposal is inserted into the proposal
collection scored by the `/final-score` entry of the returned score
document, defaulting to `0.0` when that pointer is absent; a negotiating
result is countered. -/
theorem processProposalResult_spec (proposals : ProposalsCollection) (subId : String)
    (their : ProposalView) :
    (∀ r f, processProposalResult proposals (.ok (.reject r f)) subId their =
        .ok (proposals,
          [.rejectProposal subId their.id (some ((r.finalFlag f).toReason))], []) ∧
      ((r.finalFlag f).toReason).message = r.message ∧
      Reason.markedFinal ((r.finalFlag f).toReason) = f) ∧
    (∀ our score, their.state = .initial →
      processProposalResult proposals (.ok (.ready our score)) subId their =
        .ok (proposals, [.counterProposal their.id subId our.toNewProposal], [])) ∧
    (∀ our score, their.state = .draft →
      ∃ c fb, processProposalResult proposals (.ok (.ready our score)) subId their =
          .ok (c, [], fb) ∧
        c.awaiting = insertSorted proposals.awaiting
          ⟨their, our, score.finalScoreOrDefault "/final-score"⟩ ∧
        (⟨their, our, score.finalScoreOrDefault "/final-score"⟩ : ProposalScore) ∈
          c.awaiting ∧
        (score.properties.pointer "/final-score" = none →
          score.finalScoreOrDefault "/final-score" = .fin 0)) ∧
    (∀ our score,
      processProposalResult proposals (.ok (.negotiating our score)) subId their =
        .ok (proposals, [.counterProposal their.id subId our.toNewProposal], [])) := by
  refine ⟨?_, ?_, ?_, ?_⟩
  · intro r f
    exact ⟨rfl, rfl, markedFinal_finalFlag r f⟩
  · intro our score hst
    simp [processProposalResult, hst]
  · intro our score hst
    have hnan : (⟨their, our, score.finalScoreOrDefault "/final-score"⟩ :
        ProposalScore).score.isNan = false := finalScoreOrDefault_not_nan score _
    simp only [processProposalResult, hst, newScored_ok _ _ _ hnan]
    refine ⟨_, _, rfl, rfl, ?_, ?_⟩
    · exact (mem_insertSorted _ _ _).mpr (Or.inl rfl)
    · intro habsent
      simp [OfferTemplate.finalScoreOrDefault, habsent]
  · intro our score
    rfl

/-- C2 witness: a ready chain result on a draft proposal with an absent
final-score pointer lands in the collection with score zero. -/
theorem processProposalResult_spec_witness :
    ∃ c fb,
      processProposalResult (sampleCollection (.batch 10))
          (.ok (.ready (samplePv "our" .draft) sampleTemplate)) "sub"
          (samplePv "their" .draft) = .ok (c, [], fb) ∧
      c.awaiting = insertSorted (sampleCollection (.batch 10)).awaiting
        ⟨samplePv "their" .draft, samplePv "our" .draft,
          sampleTemplate.finalScoreOrDefault "/final-score"⟩ ∧
      (⟨samplePv "their" .draft, samplePv "our" .draft,
        sampleTemplate.finalScoreOrDefault "/final-score"⟩ : ProposalScore) ∈ c.awaiting ∧
      (sampleTemplate.properties.pointer "/final-score" = none →
        sampleTemplate.finalScoreOrDefault "/final-score" = .fin 0) :=
  (processProposalResult_spec (sampleCollection (.batch 10)) "sub"
    (samplePv "their" .draft)).2.2.1 (samplePv "our" .draft) sampleTemplate rfl

/-- C6 (amended): dispatch of a chain result for an agreement: a ready
result is inserted into the agreement collection; a reject emits
`RejectAgreement` carrying the reason and final flag; a negotiating result
emits `RejectAgreement` with the reason `negotiationsNotFinishedMsg`
(the source string, which ends in a period, unlike the claim text) marked
final, so a
non-ready result never reaches the collection. -/
theorem processAgreementResult_spec (agreements : ProposalsCollection)
    (subId agrId : String) (their : ProposalView) :
    (∀ p s, ∃ c fb,
      processAgreementResult agreements (.ok (.ready p s)) subId agrId their =
          .ok (c, [], fb) ∧
        c.awaiting = insertSorted agreements.awaiting
          ⟨their, p, s.finalScoreOrDefault "/final-score"⟩ ∧
        (⟨their, p, s.finalScoreOrDefault "/final-score"⟩ : ProposalScore) ∈ c.awaiting) ∧
    (∀ r f, processAgreementResult agreements (.ok (.reject r f)) subId agrId their =
        .ok (agreements,
          [.rejectAgreement agrId subId (some ((r.finalFlag f).toReason))], []) ∧
      ((r.finalFlag f).toReason).message = r.message ∧
      Reason.markedFinal ((r.finalFlag f).toReason) = f) ∧
    (∀ p s, processAgreementResult agreements (.ok (.negotiating p s)) subId agrId their =
        .ok (agreements,
          [.rejectAgreement agrId subId
            (some (((RejectReason.new negotiationsNotFinishedMsg).finalFlag
              true).toReason))], []) ∧
      (((RejectReason.new negotiationsNotFinishedMsg).finalFlag
        true).toReason).message = negotiationsNotFinishedMsg ∧
      Reason.markedFinal (((RejectReason.new negotiationsNotFinishedMsg).finalFlag
        true).toReason) = true) := by
  refine ⟨?_, ?_, ?_⟩
  · intro p s
    have hnan : (⟨their, p, s.finalScoreOrDefault "/final-score"⟩ :
        ProposalScore).score.isNan = false := finalScoreOrDefault_not_nan s _
    simp only [processAgreementResult, newScored_ok _ _ _ hnan]
    refine ⟨_, _, rfl, rfl, ?_⟩
    exact (mem_insertSorted _ _ _).mpr (Or.inl rfl)
  · intro r f
    exact ⟨rfl, rfl, markedFinal_finalFlag r f⟩
  · intro p s
    exact ⟨rfl, rfl, markedFinal_finalFlag _ true⟩

/-- C6 witness: a negotiating chain result for an agreement is rejected
with the final-marked not-finished reason. -/
theorem processAgreementResult_spec_witness :
    processAgreementResult (sampleCollection (.limit 1))
        (.ok (.negotiating (samplePv "p" .accepted) sampleTemplate)) "sub" "agr"
        (samplePv "t" .accepted) =
      .ok (sampleCollection (.limit 1),
        [.rejectAgreement "agr" "sub"
          (some (((RejectReason.new negotiationsNotFinishedMsg).finalFlag
            true).toReason))], []) ∧
    Reason.markedFinal (((RejectReason.new negotiationsNotFinishedMsg).finalFlag
      true).toReason) = true :=
  ⟨((processAgreementResult_spec (sampleCollection (.limit 1)) "sub" "agr"
      (samplePv "t" .accepted)).2.2 (samplePv "p" .accepted) sampleTemplate).1,
   ((processAgreementResult_spec (sampleCollection (.limit 1)) "sub" "agr"
      (samplePv "t" .accepted)).2.2 (samplePv "p" .accepted) sampleTemplate).2.2⟩

/-- C6 counterexample: the reject reason message carried on the
negotiating agreement path ends with a period, so it differs from the
period-free string the claim states. -/
theorem processAgreementResult_reason_counterexample :
    (((RejectReason.new negotiationsNotFinishedMsg).finalFlag true).toReason).message =
      negotiationsNotFinishedMsg ∧
    negotiationsNotFinishedMsg ≠
      "Negotiations aren" ++ String.mk [Char.ofNat 39] ++ "t finished" := by
  constructor
  · rfl
  · decide

/-- The empty buffer is sorted. -/
theorem sortedDesc_nil : sortedDesc [] := by
  intro i j hi
  simp at hi

/-- The empty buffer has no NaN. -/
theorem noNaNScores_nil : noNaNScores [] := by
  intro p hp
  simp at hp

/-- One `add_rejected` step: the rejected pool stays sorted and NaN-free,
nothing else changes, old members persist, and a non-NaN entry lands in
the pool. -/
theorem addRejected_spec (c : ProposalsCollection) (e : ProposalScore) :
    (sortedDesc c.rejected → noNaNScores c.rejected →
      sortedDesc (c.addRejected e).rejected ∧ noNaNScores (c.addRejected e).rejected) ∧
    (c.addRejected e).awaiting = c.awaiting ∧
    (c.addRejected e).goal = c.goal ∧
    (c.addRejected e).collectAmount = c.collectAmount ∧
    (∀ x ∈ c.rejected, x ∈ (c.addRejected e).rejected) ∧
    (e.score.isNan = false → e ∈ (c.addRejected e).rejected) := by
  unfold ProposalsCollection.addRejected
  split
  · next hcond =>
    exact ⟨fun h1 h2 => ⟨h1, h2⟩, rfl, rfl, rfl, fun x hx => hx,
      fun h => by rw [h] at hcond; exact Bool.noConfusion hcond⟩
  · next hcond =>
    have hnan : e.score.isNan = false := by
      revert hcond
      cases e.score.isNan <;> simp
    refine ⟨fun h1 h2 => ⟨insertSorted_sortedDesc _ _ h1 h2 hnan,
      insertSorted_noNaN _ _ h2 hnan⟩, rfl, rfl, rfl, ?_, ?_⟩
    · intro x hx
      exact (mem_insertSorted _ _ _).mpr (Or.inr hx)
    · intro _
      exact (mem_insertSorted _ _ _).mpr (Or.inl rfl)

/-- Folding `add_rejected` over a list of entries: the awaiting buffer,
goal and collect amount are untouched, old rejected members persist, and
every non-NaN entry of the list ends up in the pool. -/
theorem foldl_addRejected_state (entries : List ProposalScore) :
    ∀ c : ProposalsCollection,
      (entries.foldl ProposalsCollection.addRejected c).awaiting = c.awaiting ∧
      (entries.foldl ProposalsCollection.addRejected c).goal = c.goal ∧
      (entries.foldl ProposalsCollection.addRejected c).collectAmount = c.collectAmount ∧
      (∀ x ∈ c.rejected, x ∈ (entries.foldl ProposalsCollection.addRejected c).rejected) ∧
      (∀ e ∈ entries, e.score.isNan = false →
        e ∈ (entries.foldl ProposalsCollection.addRejected c).rejected) := by
  induction entries with
  | nil => exact fun c => ⟨rfl, rfl, rfl, fun x hx => hx, fun e he => by simp at he⟩
  | cons hd tl ih =>
    intro c
    have hstep := addRejected_spec c hd
    have hrec := ih (c.addRejected hd)
    simp only [List.foldl_cons]
    refine ⟨hrec.1.trans hstep.2.1, hrec.2.1.trans hstep.2.2.1,
      hrec.2.2.1.trans hstep.2.2.2.1, ?_, ?_⟩
    · intro x hx
      exact hrec.2.2.2.1 x (hstep.2.2.2.2.1 x hx)
    · intro e he hnan
      rcases List.mem_cons.mp he with he | he
      · subst he
        exact hrec.2.2.2.1 e (hstep.2.2.2.2.2 hnan)
      · exact hrec.2.2.2.2 e he hnan

/-- Folding `add_rejected` preserves sortedness and NaN-freedom of the
pool. -/
theorem foldl_addRejected_sorted (entries : List ProposalScore) :
    ∀ c : ProposalsCollection, sortedDesc c.rejected → noNaNScores c.rejected →
      sortedDesc (entries.foldl ProposalsCollection.addRejected c).rejected ∧
      noNaNScores (entries.foldl ProposalsCollection.addRejected c).rejected := by
  induction entries with
  | nil => exact fun c h1 h2 => ⟨h1, h2⟩
  | cons hd tl ih =>
    intro c h1 h2
    have hstep := (addRejected_spec c hd).1 h1 h2
    simpa only [List.foldl_cons] using ih (c.addRejected hd) hstep.1 hstep.2

/-- `decide` on a `Limit` goal: the state and feedback, written out. -/
theorem decide_limit_eq (c : ProposalsCollection) (n : ℕ) (h : c.goal = .limit n) :
    c.decide =
      ((c.awaiting.drop (min n c.awaiting.length)).foldl ProposalsCollection.addRejected
        { c with awaiting := [], goal := .limit (n - min n c.awaiting.length) },
       (c.awaiting.take (min n c.awaiting.length)).map
          (fun proposal => FeedbackAction.accept proposal.their.id) ++
        (c.awaiting.drop (min n c.awaiting.length)).map
          (fun proposal => FeedbackAction.reject proposal.their.id
            (RejectReason.new "Node is busy.") false)) := by
  simp only [ProposalsCollection.decide, h]

/-- `decide` on a `Batch` goal: the state and feedback, written out. -/
theorem decide_batch_eq (c : ProposalsCollection) (b : ℕ) (h : c.goal = .batch b) :
    c.decide =
      ((c.awaiting.drop (min b c.awaiting.length)).foldl ProposalsCollection.addRejected
        { c with awaiting := [], goal := .batch b },
       (c.awaiting.take (min b c.awaiting.length)).map
          (fun proposal => FeedbackAction.accept proposal.their.id) ++
        (c.awaiting.drop (min b c.awaiting.length)).map
          (fun proposal => FeedbackAction.reject proposal.their.id
            (RejectReason.new "Node is busy.") false)) := by
  simp only [ProposalsCollection.decide, h]

/-- Counting accepts distributes over append. -/
theorem countAccepts_append (xs ys : List FeedbackAction) :
    countAccepts (xs ++ ys) = countAccepts xs + countAccepts ys := by
  simp [countAccepts, List.filter_append]

/-- A mapped accept list counts its length. -/
theorem countAccepts_accept_map (l : List ProposalScore) :
    countAccepts (l.map (fun proposal => FeedbackAction.accept proposal.their.id)) =
      l.length := by
  induction l with
  | nil => rfl
  | cons hd tl ih => simpa [countAccepts, List.filter_cons] using ih

/-- A mapped reject list counts no accepts. -/
theorem countAccepts_reject_map (l : List ProposalScore) (r : RejectReason) (f : Bool) :
    countAccepts (l.map (fun proposal =>
      FeedbackAction.reject proposal.their.id r f)) = 0 := by
  induction l with
  | nil => rfl
  | cons hd tl ih => simp [countAccepts, List.filter_cons, ih]

/-- The feedback of `new_scored` contains no accepts. -/
theorem countAccepts_decideFeedback (cond : Prop) [Decidable cond] :
    countAccepts (if cond then [FeedbackAction.decide .goalReached] else []) = 0 := by
  split <;> rfl

/-- `applyOp` of a `new_scored` operation: goal, rejected pool and collect
amount are unchanged and no accept is emitted. -/
theorem applyOp_newScored (c : ProposalsCollection) (e : ProposalScore) (id : String) :
    (c.applyOp (.newScored e id)).1.goal = c.goal ∧
    (c.applyOp (.newScored e id)).1.rejected = c.rejected ∧
    (c.applyOp (.newScored e id)).1.collectAmount = c.collectAmount ∧
    countAccepts (c.applyOp (.newScored e id)).2 = 0 := by
  simp only [ProposalsCollection.applyOp]
  cases hnan : e.score.isNan with
  | true =>
    rw [ProposalsCollection.newScored, if_pos (by simp [hnan])]
    exact ⟨rfl, rfl, rfl, rfl⟩
  | false =>
    rw [newScored_ok c e id hnan]
    exact ⟨rfl, rfl, rfl, countAccepts_decideFeedback _⟩

/-- `applyOp` preserves the collection invariant. -/
theorem applyOp_preserves_inv (c : ProposalsCollection) (op : CollectionOp)
    (h : CollectionInv c) : CollectionInv (c.applyOp op).1 := by
  obtain ⟨hsa, hsr, hna, hnr⟩ := h
  cases op with
  | newScored e id =>
    simp only [ProposalsCollection.applyOp]
    cases hnan : e.score.isNan with
    | true =>
      rw [ProposalsCollection.newScored, if_pos (by simp [hnan])]
      exact ⟨hsa, hsr, hna, hnr⟩
    | false =>
      rw [newScored_ok c e id hnan]
      exact ⟨insertSorted_sortedDesc _ _ hsa hna hnan, hsr,
        insertSorted_noNaN _ _ hna hnan, hnr⟩
  | decide =>
    simp only [ProposalsCollection.applyOp]
    rcases hg : c.goal with n | b
    · rw [decide_limit_eq c n hg]
      have hstate := foldl_addRejected_state (c.awaiting.drop (min n c.awaiting.length))
        { c with awaiting := [], goal := .limit (n - min n c.awaiting.length) }
      have hsorted := foldl_addRejected_sorted (c.awaiting.drop (min n c.awaiting.length))
        { c with awaiting := [], goal := .limit (n - min n c.awaiting.length) } hsr hnr
      refine ⟨?_, hsorted.1, ?_, hsorted.2⟩
      · rw [hstate.1]
        exact sortedDesc_nil
      · rw [hstate.1]
        exact noNaNScores_nil
    · rw [decide_batch_eq c b hg]
      have hstate := foldl_addRejected_state (c.awaiting.drop (min b c.awaiting.length))
        { c with awaiting := [], goal := .batch b }
      have hsorted := foldl_addRejected_sorted (c.awaiting.drop (min b c.awaiting.length))
        { c with awaiting := [], goal := .batch b } hsr hnr
      refine ⟨?_, hsorted.1, ?_, hsorted.2⟩
      · rw [hstate.1]
        exact sortedDesc_nil
      · rw [hstate.1]
        exact noNaNScores_nil

/-- Unfolding of `runOps` on a cons. -/
theorem runOps_cons (c : ProposalsCollection) (op : CollectionOp)
    (rest : List CollectionOp) :
    c.runOps (op :: rest) =
      (((c.applyOp op).1.runOps rest).1,
        (c.applyOp op).2 ++ ((c.applyOp op).1.runOps rest).2) := by
  rfl

/-- C4 (amended): after any sequence of `new_scored` and `decide` calls
starting from a state satisfying the invariant, both the awaiting and the
rejected vectors are sorted by score in descending order and no stored
score is NaN.  (The stronger claim fails: equal-score entries are not
always kept in insertion order, and non-NaN infinite scores are accepted;
see the counterexample.) -/
theorem collection_inv_preserved (c : ProposalsCollection) (ops : List CollectionOp)
    (h : CollectionInv c) : CollectionInv (c.runOps ops).1 := by
  induction ops generalizing c with
  | nil => exact h
  | cons op rest ih =>
    rw [runOps_cons]
    exact ih _ (applyOp_preserves_inv c op h)

/-- C4 witness: the invariant holds after a concrete insert-decide-insert
sequence from the empty collection. -/
theorem collection_inv_preserved_witness :
    CollectionInv ((sampleCollection (.batch 10)).runOps
      [.newScored (sampleEntry "a" (.fin 1)) "a", .decide,
       .newScored (sampleEntry "b" (.fin 2)) "b"]).1 :=
  collection_inv_preserved (sampleCollection (.batch 10)) _
    ⟨sortedDesc_nil, sortedDesc_nil, noNaNScores_nil, noNaNScores_nil⟩

/-- C4 counterexample: inserting four entries of equal score 1 in the
order a, b, c, d and then an entry of score plus-infinity leaves the
awaiting buffer as e, a, b, d, c: the tied entries c and d appear out of
insertion order (the binary search returned a middle element of the equal
run), and the stored head has a non-finite score. -/
theorem collection_tie_order_counterexample :
    (((sampleCollection (.batch 10)).runOps
      [.newScored (sampleEntry "a" (.fin 1)) "a",
       .newScored (sampleEntry "b" (.fin 1)) "b",
       .newScored (sampleEntry "c" (.fin 1)) "c",
       .newScored (sampleEntry "d" (.fin 1)) "d",
       .newScored (sampleEntry "e" .inf) "e"]).1.awaiting.map
        (fun p => p.their.id)) = ["e", "a", "b", "d", "c"] ∧
    (((sampleCollection (.batch 10)).runOps
      [.newScored (sampleEntry "a" (.fin 1)) "a",
       .newScored (sampleEntry "b" (.fin 1)) "b",
       .newScored (sampleEntry "c" (.fin 1)) "c",
       .newScored (sampleEntry "d" (.fin 1)) "d",
       .newScored (sampleEntry "e" .inf) "e"]).1.awaiting.map
        (fun p => p.score.isFinite)) = [false, true, true, true, true] := by
  exact ⟨rfl, rfl⟩

/-- Running any operation sequence from a `Limit(n)` goal accepts at most
`n` entries in total, and the goal always reads `Limit(n - accepted)`. -/
theorem runOps_limit_invariant (ops : List CollectionOp) :
    ∀ (c : ProposalsCollection) (n : ℕ), c.goal = .limit n →
      countAccepts (c.runOps ops).2 ≤ n ∧
      (c.runOps ops).1.goal = .limit (n - countAccepts (c.runOps ops).2) := by
  induction ops with
  | nil =>
    intro c n h
    refine ⟨Nat.zero_le n, ?_⟩
    simpa [ProposalsCollection.runOps, countAccepts] using h
  | cons op rest ih =>
    intro c n h
    rw [runOps_cons]
    simp only [countAccepts_append]
    cases op with
    | newScored e id =>
      have hop := applyOp_newScored c e id
      have hgoal1 : (c.applyOp (.newScored e id)).1.goal = .limit n := hop.1.trans h
      have hrec := ih (c.applyOp (.newScored e id)).1 n hgoal1
      rw [hop.2.2.2]
      refine ⟨by omega, ?_⟩
      simpa using hrec.2
    | decide =>
      have happ : c.applyOp .decide = c.decide := rfl
      have hk : min n c.awaiting.length ≤ n := Nat.min_le_left _ _
      have hcnt : countAccepts (c.decide).2 = min n c.awaiting.length := by
        rw [decide_limit_eq c n h]
        simp only [countAccepts_append, countAccepts_accept_map, countAccepts_reject_map,
          List.length_take]
        omega
      have hgoal1 : (c.decide).1.goal = .limit (n - min n c.awaiting.length) := by
        rw [decide_limit_eq c n h]
        exact (foldl_addRejected_state _ _).2.1
      have hrec := ih (c.decide).1 (n - min n c.awaiting.length) hgoal1
      rw [happ, hcnt, hrec.2]
      have hle := hrec.1
      refine ⟨by omega, ?_⟩
      congr 1
      omega

/-- C3: `decide` with goal `Limit(n)` emits exactly `min(n, |awaiting|)`
accepts (the front of the sorted buffer) followed by a non-final reject
with reason "Node is busy." for every other awaiting entry, moves those
into the rejected pool, empties the awaiting buffer, and decrements the
goal to `Limit(n - k)`; with goal `Batch(b)` it emits at most `b` accepts
and leaves the goal unchanged; and along any sequence of operations from
a `Limit(n)` goal the total number of accepts never exceeds `n`, the goal
staying at `Limit(n - total)` (so it decreases monotonically toward
zero). -/
theorem collection_decide_spec (c : ProposalsCollection) (n b : ℕ)
    (ops : List CollectionOp) :
    (c.goal = .limit n →
      (c.decide).2 =
        (c.awaiting.take (min n c.awaiting.length)).map
          (fun proposal => FeedbackAction.accept proposal.their.id) ++
        (c.awaiting.drop (min n c.awaiting.length)).map
          (fun proposal => FeedbackAction.reject proposal.their.id
            (RejectReason.new "Node is busy.") false) ∧
      countAccepts (c.decide).2 = min n c.awaiting.length ∧
      (c.decide).1.goal = .limit (n - min n c.awaiting.length) ∧
      (c.decide).1.awaiting = [] ∧
      (noNaNScores c.awaiting →
        ∀ p ∈ c.awaiting.drop (min n c.awaiting.length), p ∈ (c.decide).1.rejected)) ∧
    (c.goal = .batch b →
      (c.decide).2 =
        (c.awaiting.take (min b c.awaiting.length)).map
          (fun proposal => FeedbackAction.accept proposal.their.id) ++
        (c.awaiting.drop (min b c.awaiting.length)).map
          (fun proposal => FeedbackAction.reject proposal.their.id
            (RejectReason.new "Node is busy.") false) ∧
      countAccepts (c.decide).2 ≤ b ∧
      (c.decide).1.goal = .batch b ∧
      (c.decide).1.awaiting = [] ∧
      (noNaNScores c.awaiting →
        ∀ p ∈ c.awaiting.drop (min b c.awaiting.length), p ∈ (c.decide).1.rejected)) ∧
    (c.goal = .limit n →
      countAccepts (c.runOps ops).2 ≤ n ∧
      (c.runOps ops).1.goal = .limit (n - countAccepts (c.runOps ops).2)) := by
  refine ⟨?_, ?_, fun h => runOps_limit_invariant ops c n h⟩
  · intro h
    have heq := decide_limit_eq c n h
    refine ⟨by rw [heq], ?_, ?_, ?_, ?_⟩
    · rw [heq]
      simp only [countAccepts_append, countAccepts_accept_map, countAccepts_reject_map,
        List.length_take]
      omega
    · rw [heq]
      exact (foldl_addRejected_state _ _).2.1
    · rw [heq]
      exact (foldl_addRejected_state _ _).1
    · intro hnn p hp
      rw [heq]
      exact (foldl_addRejected_state _ _).2.2.2.2 p hp
        (hnn p (List.drop_subset _ _ hp))
  · intro h
    have heq := decide_batch_eq c b h
    refine ⟨by rw [heq], ?_, ?_, ?_, ?_⟩
    · rw [heq]
      simp only [countAccepts_append, countAccepts_accept_map, countAccepts_reject_map,
        List.length_take]
      omega
    · rw [heq]
      exact (foldl_addRejected_state _ _).2.1
    · rw [heq]
      exact (foldl_addRejected_state _ _).1
    · intro hnn p hp
      rw [heq]
      exact (foldl_addRejected_state _ _).2.2.2.2 p hp
        (hnn p (List.drop_subset _ _ hp))

/-- C3 witness: a limit-2 collection with three awaiting entries accepts
the two best, moves the third into the rejected pool, and zeroes the
goal. -/
theorem collection_decide_spec_witness :
    countAccepts ((⟨[sampleEntry "a" (.fin 3), sampleEntry "b" (.fin 2),
        sampleEntry "c" (.fin 1)], [], .limit 2, 5,
        .proposal⟩ : ProposalsCollection).decide).2 = min 2 3 ∧
    ((⟨[sampleEntry "a" (.fin 3), sampleEntry "b" (.fin 2),
        sampleEntry "c" (.fin 1)], [], .limit 2, 5,
        .proposal⟩ : ProposalsCollection).decide).1.goal = .limit (2 - min 2 3) ∧
    sampleEntry "c" (.fin 1) ∈
      ((⟨[sampleEntry "a" (.fin 3), sampleEntry "b" (.fin 2),
        sampleEntry "c" (.fin 1)], [], .limit 2, 5,
        .proposal⟩ : ProposalsCollection).decide).1.rejected := by
  have h := (collection_decide_spec (⟨[sampleEntry "a" (.fin 3), sampleEntry "b" (.fin 2),
    sampleEntry "c" (.fin 1)], [], .limit 2, 5, .proposal⟩ : ProposalsCollection)
    2 0 []).1 rfl
  refine ⟨h.2.1, h.2.2.1, ?_⟩
  refine h.2.2.2.2 ?_ (sampleEntry "c" (.fin 1)) ?_
  · intro p hp
    fin_cases hp <;> rfl
  · show sampleEntry "c" (.fin 1) ∈ [sampleEntry "c" (.fin 1)]
    exact List.mem_singleton.mpr rfl

/-- C7: `LimitExpiration::negotiate_step` reads
`/golem/srv/comp/expiration` from the incoming proposal as milliseconds
since epoch, rejects whenever the value is absent, not an integer, or
outside `[now + min_expiration, now + max_expiration]`, and otherwise
returns `Ready` with the template unchanged.  (In this source revision the
`Reject` variant carries no finality flag; its contract is terminal.) -/
theorem limitExpiration_spec (minE maxE now : ℤ) (demand offer : ProposalView) :
    (∀ e, proposalExpirationFrom demand = .error e →
      limitExpirationStep minE maxE now demand offer =
        .reject (some { message := .fromError e, extra := [] })) ∧
    (∀ exp, proposalExpirationFrom demand = .ok exp →
      ((exp > now + maxE ∨ exp < now + minE) →
        limitExpirationStep minE maxE now demand offer =
          .reject (some { message := .expiresOutOfBounds exp, extra := [] })) ∧
      (now + minE ≤ exp → exp ≤ now + maxE →
        limitExpirationStep minE maxE now demand offer = .ready offer)) ∧
    (demand.pointer "/golem/srv/comp/expiration" = none →
      proposalExpirationFrom demand = .error .missingKey) ∧
    (∀ v, demand.pointer "/golem/srv/comp/expiration" = some v → v.asI64 = none →
      proposalExpirationFrom demand = .error .notI64) ∧
    (∀ v e, demand.pointer "/golem/srv/comp/expiration" = some v → v.asI64 = some e →
      proposalExpirationFrom demand = .ok e) := by
  refine ⟨?_, ?_, ?_, ?_, ?_⟩
  · intro e he
    simp [limitExpirationStep, he]
  · intro exp hexp
    constructor
    · intro hout
      simp only [limitExpirationStep, hexp]
      rw [if_pos]
      omega
    · intro hlo hhi
      simp only [limitExpirationStep, hexp]
      rw [if_neg]
      omega
  · intro habsent
    simp [proposalExpirationFrom, habsent]
  · intro v hv hnum
    simp [proposalExpirationFrom, hv, hnum]
  · intro v e hv hnum
    simp [proposalExpirationFrom, hv, hnum]

/-- C7 witness: with a 30 s to 300 s window around `now = 0`, an
expiration of 50 s is accepted unchanged and one of 900 s is rejected;
a proposal without the key is rejected as missing. -/
theorem limitExpiration_spec_witness :
    limitExpirationStep 30000 300000 0 (samplePvWithExpiration 50000)
        (samplePv "o" .draft) = .ready (samplePv "o" .draft) ∧
    limitExpirationStep 30000 300000 0 (samplePvWithExpiration 900000)
        (samplePv "o" .draft) =
      .reject (some { message := .expiresOutOfBounds 900000, extra := [] }) ∧
    limitExpirationStep 30000 300000 0 (samplePv "t" .initial)
        (samplePv "o" .draft) =
      .reject (some { message := .fromError .missingKey, extra := [] }) :=
  ⟨((limitExpiration_spec 30000 300000 0 (samplePvWithExpiration 50000)
      (samplePv "o" .draft)).2.1 50000 rfl).2 (by omega) (by omega),
   ((limitExpiration_spec 30000 300000 0 (samplePvWithExpiration 900000)
      (samplePv "o" .draft)).2.1 900000 rfl).1 (by omega),
   (limitExpiration_spec 30000 300000 0 (samplePv "t" .initial)
      (samplePv "o" .draft)).1 .missingKey rfl⟩

/-- String equality from data equality. -/
theorem string_ext {s t : String} (h : s.data = t.data) : s = t := by
  cases s
  cases t
  exact congrArg String.mk h

/-- The digit-rendering fuel only needs to exceed the argument. -/
theorem natDigitsGo_irrel (n : ℕ) :
    ∀ fuel fuel', n < fuel → n < fuel' → natDigitsGo fuel n = natDigitsGo fuel' n := by
  induction n using Nat.strong_induction_on with
  | _ n ih =>
    intro fuel fuel' hf hf'
    match fuel, fuel' with
    | f + 1, f' + 1 =>
      simp only [natDigitsGo]
      by_cases h10 : n < 10
      · simp [h10]
      · have hdiv : n / 10 < n := Nat.div_lt_self (by omega) (by omega)
        simp only [if_neg h10]
        rw [ih (n / 10) hdiv f f' (by omega) (by omega)]

/-- Unfolding equation of the decimal rendering. -/
theorem natDigits_unfold (n : ℕ) :
    natDigits n =
      if n < 10 then [digitChar n]
      else natDigits (n / 10) ++ [digitChar (n % 10)] := by
  by_cases h10 : n < 10
  · rw [if_pos h10]
    unfold natDigits
    simp only [natDigitsGo, if_pos h10]
  · rw [if_neg h10]
    have hdiv : n / 10 < n := Nat.div_lt_self (by omega) (by omega)
    show natDigitsGo (n + 1) n = natDigitsGo (n / 10 + 1) (n / 10) ++ [digitChar (n % 10)]
    have hstep : natDigitsGo (n + 1) n = natDigitsGo n (n / 10) ++ [digitChar (n % 10)] := by
      simp only [natDigitsGo, if_neg h10]
    rw [hstep, natDigitsGo_irrel (n / 10) n (n / 10 + 1) (by omega) (by omega)]

/-- Every digit character is an ASCII digit. -/
theorem digitChar_isDigit (d : ℕ) (h : d < 10) : (digitChar d).isDigit = true := by
  interval_cases d <;> decide

/-- Code point of a digit character. -/
theorem digitChar_toNat (d : ℕ) (h : d < 10) : (digitChar d).toNat = 48 + d := by
  interval_cases d <;> decide

/-- The decimal rendering consists of digit characters. -/
theorem natDigits_all_digit (n : ℕ) : ∀ c ∈ natDigits n, c.isDigit = true := by
  induction n using Nat.strong_induction_on with
  | _ n ih =>
    intro c hc
    rw [natDigits_unfold] at hc
    by_cases h10 : n < 10
    · rw [if_pos h10] at hc
      rcases List.mem_singleton.mp hc with rfl
      exact digitChar_isDigit n h10
    · rw [if_neg h10] at hc
      rcases List.mem_append.mp hc with hc | hc
      · exact ih (n / 10) (Nat.div_lt_self (by omega) (by omega)) c hc
      · rcases List.mem_singleton.mp hc with rfl
        exact digitChar_isDigit _ (Nat.mod_lt n (by omega))

/-- The decimal rendering is never empty. -/
theorem natDigits_ne_nil (n : ℕ) : natDigits n ≠ [] := by
  rw [natDigits_unfold]
  by_cases h10 : n < 10
  · simp [h10]
  · simp [h10]

/-- Folding one more digit onto a parse. -/
theorem parseDigits_append_last (xs : List Char) (c : Char) :
    parseDigits (xs ++ [c]) = 10 * parseDigits xs + (c.toNat - 48) := by
  unfold parseDigits
  rw [List.foldl_append]
  rfl

/-- Parsing inverts rendering. -/
theorem parseDigits_natDigits (n : ℕ) : parseDigits (natDigits n) = n := by
  induction n using Nat.strong_induction_on with
  | _ n ih =>
    rw [natDigits_unfold]
    by_cases h10 : n < 10
    · rw [if_pos h10]
      show 10 * 0 + ((digitChar n).toNat - 48) = n
      rw [digitChar_toNat n h10]
      omega
    · rw [if_neg h10, parseDigits_append_last,
        ih (n / 10) (Nat.div_lt_self (by omega) (by omega)),
        digitChar_toNat _ (Nat.mod_lt n (by omega))]
      omega

/-- `takeWhile` swallows a satisfying block up to the first failure. -/
theorem takeWhile_append_block (P : Char → Bool) :
    ∀ (xs : List Char) (y : Char) (ys : List Char),
      (∀ x ∈ xs, P x = true) → P y = false →
      List.takeWhile P (xs ++ y :: ys) = xs := by
  intro xs
  induction xs with
  | nil =>
    intro y ys _ hy
    simp [List.takeWhile, hy]
  | cons hd tl ih =>
    intro y ys hall hy
    have hhd : P hd = true := hall hd (List.mem_cons_self hd tl)
    rw [List.cons_append, List.takeWhile_cons_of_pos hhd,
      ih y ys (fun x hx => hall x (List.mem_cons_of_mem hd hx)) hy]

/-- The data of `mkName`. -/
theorem mkName_data (p : String) (k : ℕ) :
    (mkName p k).data = p.data ++ '#' :: natDigits k := by
  unfold mkName
  rw [String.data_append, String.data_append]
  simp

/-- Splitting a stem-hash-digits character list recovers its parts. -/
theorem stripNumCore_append (stem ds : List Char) (hne : ds ≠ [])
    (hdig : ∀ c ∈ ds, c.isDigit = true) :
    stripNumCore (stem ++ '#' :: ds) = some (stem, ds) := by
  unfold stripNumCore
  have hrev : (stem ++ '#' :: ds).reverse = ds.reverse ++ '#' :: stem.reverse := by
    simp
  rw [hrev]
  have htake : List.takeWhile Char.isDigit (ds.reverse ++ '#' :: stem.reverse) =
      ds.reverse :=
    takeWhile_append_block Char.isDigit ds.reverse '#' stem.reverse
      (fun x hx => hdig x (List.mem_reverse.mp hx)) (by decide)
  simp only [htake]
  rw [if_neg (by simp [List.isEmpty_iff, hne])]
  rw [List.length_reverse, ← List.length_reverse ds, List.drop_left]
  simp

/-- Splitting `mkName p k` with an in-range index succeeds. -/
theorem stripU32_mkName (p : String) (k : ℕ) (h : k ≤ 4294967295) :
    stripU32 (mkName p k) = some (p, k) := by
  unfold stripU32
  rw [mkName_data,
    stripNumCore_append p.data (natDigits k) (natDigits_ne_nil k) (natDigits_all_digit k)]
  simp only [parseDigits_natDigits]
  rw [if_pos h]

/-- Splitting `mkName p k` with an overflowing index fails the `u32`
parse. -/
theorem stripU32_mkName_overflow (p : String) (k : ℕ) (h : 4294967295 < k) :
    stripU32 (mkName p k) = none := by
  unfold stripU32
  rw [mkName_data,
    stripNumCore_append p.data (natDigits k) (natDigits_ne_nil k) (natDigits_all_digit k)]
  simp only [parseDigits_natDigits]
  rw [if_neg (by omega)]

/-- `mkName` is injective in both arguments. -/
theorem mkName_inj {p p' : String} {k k' : ℕ} (h : mkName p k = mkName p' k') :
    p = p' ∧ k = k' := by
  have hdata : p.data ++ '#' :: natDigits k = p'.data ++ '#' :: natDigits k' := by
    have := congrArg String.data h
    rwa [mkName_data, mkName_data] at this
  have hrev : (natDigits k).reverse ++ '#' :: p.data.reverse =
      (natDigits k').reverse ++ '#' :: p'.data.reverse := by
    have := congrArg List.reverse hdata
    simpa using this
  have htk : List.takeWhile Char.isDigit
      ((natDigits k).reverse ++ '#' :: p.data.reverse) = (natDigits k).reverse :=
    takeWhile_append_block _ _ _ _
      (fun x hx => natDigits_all_digit k x (List.mem_reverse.mp hx)) (by decide)
  have htk' : List.takeWhile Char.isDigit
      ((natDigits k').reverse ++ '#' :: p'.data.reverse) = (natDigits k').reverse :=
    takeWhile_append_block _ _ _ _
      (fun x hx => natDigits_all_digit k' x (List.mem_reverse.mp hx)) (by decide)
  have hds : natDigits k = natDigits k' := by
    have := htk.symm.trans ((congrArg (List.takeWhile Char.isDigit) hrev).trans htk')
    exact List.reverse_injective this
  have hk : k = k' := by
    have := congrArg parseDigits hds
    rwa [parseDigits_natDigits, parseDigits_natDigits] at this
  refine ⟨?_, hk⟩
  have h2 := hdata
  rw [hds] at h2
  exact string_ext (List.append_cancel_right h2)

/-- Appending the `#1` suffix is `mkName` with index one. -/
theorem append_hash_one (p : String) : p ++ "#1" = mkName p 1 := by
  apply string_ext
  rw [String.data_append, mkName_data]
  rfl

/-- One renaming step from a canonical name: an in-range index is
incremented with the `u32` wrap, an overflowing one falls through to the
append branch. -/
theorem stepName_mkName (p : String) (k : ℕ) :
    (k ≤ 4294967295 → stepName (mkName p k) = mkName p ((k + 1) % 4294967296)) ∧
    (4294967295 < k → stepName (mkName p k) = mkName (mkName p k) 1) := by
  constructor
  · intro h
    unfold stepName
    rw [stripU32_mkName p k h]
  · intro h
    unfold stepName
    rw [stripU32_mkName_overflow p k h]
    exact append_hash_one _

/-- One renaming step from any name yields a canonical name whose index
is in `u32` range. -/
theorem stepName_canon (name : String) :
    ∃ p k, k < 4294967296 ∧ stepName name = mkName p k := by
  unfold stepName
  cases hstrip : stripU32 name with
  | none => exact ⟨name, 1, by omega, append_hash_one name⟩
  | some pk => exact ⟨pk.1, (pk.2 + 1) % 4294967296, Nat.mod_lt _ (by omega), rfl⟩

/-- Structure of the iterated renaming chain from a canonical name with
an in-range index: the stem stays fixed while the index advances by the
number of steps, modulo `2^32` (the `u32` wrap keeps every iterate in
range, so the parse never overflows again). -/
theorem stepIter_mkName (j : ℕ) :
    ∀ (p : String) (k : ℕ), k < 4294967296 →
      stepIter j (mkName p k) = mkName p ((k + j) % 4294967296) := by
  induction j with
  | zero =>
    intro p k hk
    simp [stepIter, Nat.mod_eq_of_lt hk]
  | succ j ih =>
    intro p k hk
    have hiter : stepIter (j + 1) (mkName p k) = stepIter j (stepName (mkName p k)) := by
      unfold stepIter
      exact Function.iterate_succ_apply stepName j (mkName p k)
    rw [hiter, (stepName_mkName p k).1 (by omega),
      ih p ((k + 1) % 4294967296) (Nat.mod_lt _ (by omega))]
    congr 1
    omega

/-- Distinct iteration counts (from one step on, with a gap below `2^32`)
give distinct names; after a full `u32` wrap the chain repeats. -/
theorem stepIter_ne (name : String) (i j : ℕ) (h1 : 1 ≤ i) (hij : i < j)
    (hgap : j - i < 4294967296) : stepIter i name ≠ stepIter j name := by
  obtain ⟨p0, k0, hk0, hstep⟩ := stepName_canon name
  have hi : stepIter i name = stepIter (i - 1) (mkName p0 k0) := by
    unfold stepIter
    rw [← hstep]
    conv_lhs => rw [show i = (i - 1) + 1 by omega]
    rw [Function.iterate_succ_apply]
  have hj : stepIter j name = stepIter (j - 1) (mkName p0 k0) := by
    unfold stepIter
    rw [← hstep]
    conv_lhs => rw [show j = (j - 1) + 1 by omega]
    rw [Function.iterate_succ_apply]
  rw [hi, hj, stepIter_mkName (i - 1) p0 k0 hk0, stepIter_mkName (j - 1) p0 k0 hk0]
  intro hcontra
  obtain ⟨-, hkk⟩ := mkName_inj hcontra
  omega

/-- If some iterate of the candidate escapes the used set within the
fuel, the fueled loop lands outside the used set. -/
theorem resolveName_escape (used : List String) :
    ∀ (fuel : ℕ) (name : String), (∃ m < fuel, stepIter m name ∉ used) →
      resolveName used fuel name ∉ used := by
  intro fuel
  induction fuel with
  | zero =>
    intro name h
    obtain ⟨m, hm, _⟩ := h
    omega
  | succ fuel ih =>
    intro name h
    by_cases hmem : name ∈ used
    · simp only [resolveName, if_pos hmem]
      obtain ⟨m, hm, hout⟩ := h
      have hm1 : 1 ≤ m := by
        by_contra hm0
        have : m = 0 := by omega
        subst this
        exact hout hmem
      refine ih (stepName name) ⟨m - 1, by omega, ?_⟩
      have : stepIter (m - 1) (stepName name) = stepIter m name := by
        unfold stepIter
        rw [← Function.iterate_succ_apply]
        congr 1
        omega
      rwa [this]
    · simp only [resolveName, if_neg hmem]
      exact hmem

/-- The fueled renaming loop with `used.length + 2` fuel returns a name
that is not in the used list whenever fewer than `2^32` names are in use:
the loop in the source terminates with a fresh name.  (With all `2^32`
suffixed variants of a stem in use, the `u32` wrap would cycle the source
loop forever.) -/
theorem resolveName_fresh (used : List String) (name : String)
    (hsize : used.length < 4294967296) :
    resolveName used (used.length + 2) name ∉ used := by
  refine resolveName_escape used (used.length + 2) name ?_
  by_contra hall
  push_neg at hall
  have hmem : ∀ m ≤ used.length + 1, stepIter m name ∈ used := by
    intro m hm
    exact hall m (by omega)
  have hinj : Set.InjOn (fun m => stepIter (m + 1) name)
      ((Finset.range (used.length + 1)) : Finset ℕ) := by
    intro a ha b hb hab
    by_contra hne
    have ha2 : a < used.length + 1 := by simpa using ha
    have hb2 : b < used.length + 1 := by simpa using hb
    rcases Nat.lt_or_ge a b with hlt | hge
    · exact stepIter_ne name (a + 1) (b + 1) (by omega) (by omega) (by omega) hab
    · have hlt : b < a := by omega
      exact stepIter_ne name (b + 1) (a + 1) (by omega) (by omega) (by omega) hab.symm
  have hcard : ((Finset.range (used.length + 1)).image
      (fun m => stepIter (m + 1) name)).card = used.length + 1 := by
    rw [Finset.card_image_of_injOn hinj, Finset.card_range]
  have hsub : (Finset.range (used.length + 1)).image
      (fun m => stepIter (m + 1) name) ⊆ used.toFinset := by
    intro x hx
    obtain ⟨m, hm, rfl⟩ := Finset.mem_image.mp hx
    rw [List.mem_toFinset]
    have hm2 := Finset.mem_range.mp hm
    exact hmem (m + 1) (by omega)
  have := Finset.card_le_card hsub
  have htf := used.toFinset_card_le
  omega

/-- An unused name resolves to itself. -/
theorem resolveName_not_mem (used : List String) (fuel : ℕ) (name : String)
    (h : name ∉ used) : resolveName used (fuel + 1) name = name := by
  simp only [resolveName, if_neg h]

/-- Each `add_component` appends exactly one name. -/
theorem foldl_add_length (names : List String) :
    ∀ acc : List String,
      (List.foldl addComponentName acc names).length = acc.length + names.length := by
  induction names with
  | nil => intro acc; simp
  | cons hd tl ih =>
    intro acc
    rw [List.foldl_cons, ih]
    simp [addComponentName]
    omega

/-- Later additions do not disturb earlier positions. -/
theorem foldl_add_getD (names : List String) :
    ∀ (acc : List String) (i : ℕ), i < acc.length →
      (List.foldl addComponentName acc names).getD i "" = acc.getD i "" := by
  induction names with
  | nil => intro acc i _; rfl
  | cons hd tl ih =>
    intro acc i hi
    rw [List.foldl_cons]
    have step : addComponentName acc hd =
        acc ++ [resolveName acc (acc.length + 2) hd] := rfl
    rw [ih (addComponentName acc hd) i (by simp [addComponentName]; omega), step,
      List.getD_append _ _ _ _ hi]

/-- Component names accumulated by `add_component` stay pairwise
distinct, as long as at most `2^32` names are ever in use (the freshness
of each renaming rests on the `u32` indices not wrapping around a full
cycle). -/
theorem foldl_add_nodup (names : List String) :
    ∀ acc : List String, acc.length + names.length ≤ 4294967296 → acc.Nodup →
      (List.foldl addComponentName acc names).Nodup := by
  induction names with
  | nil => exact fun acc _ h => h
  | cons hd tl ih =>
    intro acc hbound hacc
    rw [List.foldl_cons]
    refine ih _ ?_ ?_
    · simp only [addComponentName, List.length_append, List.length_singleton,
        List.length_cons, List.length_nil] at hbound ⊢
      omega
    · have hfresh := resolveName_fresh acc hd
        (by simp only [List.length_cons] at hbound; omega)
      refine List.nodup_append.mpr ⟨hacc, List.nodup_singleton _, ?_⟩
      intro x hx hx'
      rw [List.mem_singleton] at hx'
      subst hx'
      exact hfresh hx

/-- The chain after `i` additions is the chain of the first `i` names. -/
theorem chainNames_split (names : List String) (i : ℕ) :
    chainNames names =
      List.foldl addComponentName (chainNames (names.take i)) (names.drop i) := by
  unfold chainNames
  conv_lhs => rw [← List.take_append_drop i names]
  rw [List.foldl_append]

/-- The chain of the first `i` names has `i` entries. -/
theorem chainNames_take_length (names : List String) (i : ℕ) (hi : i < names.length) :
    (chainNames (names.take i)).length = i := by
  unfold chainNames
  rw [foldl_add_length]
  simp
  omega

/-- C5 (amended): `add_component` naming.  For any sequence of at most
`2^32` added names the resulting component names are pairwise distinct
(beyond that bound the renaming loop in the source is not guaranteed to
terminate, the `u32` suffix indices wrapping through a full cycle);
unconditionally the outputs positionally match the inputs (one output
per input, in order), the `i`-th output is the renaming-loop resolution
of the `i`-th input against the names already present, and an unseen
input is kept verbatim.  The concrete scenarios show `#1`, `#2`, ...
being appended to duplicates, a trailing `#<digits>` suffix being
incremented — with `u32` wrap-around arithmetic, so `#4294967295` steps
to `#0` (release builds; debug builds panic) — until unique, and a
trailing `#` without digits being treated as a literal name. -/
theorem chain_add_component_names (names : List String) (i : ℕ) :
    (chainNames names).length = names.length ∧
    (names.length ≤ 4294967296 → (chainNames names).Nodup) ∧
    (i < names.length →
      (chainNames names).getD i "" =
        resolveName (chainNames (names.take i))
          ((chainNames (names.take i)).length + 2) (names.getD i "")) ∧
    (i < names.length → names.getD i "" ∉ chainNames (names.take i) →
      (chainNames names).getD i "" = names.getD i "") ∧
    chainNames ["A"] = ["A"] ∧
    chainNames ["A", "A"] = ["A", "A#1"] ∧
    chainNames ["A", "A", "A", "A", "A"] = ["A", "A#1", "A#2", "A#3", "A#4"] ∧
    chainNames ["A#1", "A"] = ["A#1", "A"] ∧
    chainNames ["A#2", "A", "A"] = ["A#2", "A", "A#1"] ∧
    chainNames ["A#2", "A#1", "A#3"] = ["A#2", "A#1", "A#3"] ∧
    chainNames ["A#", "A"] = ["A#", "A"] := by
  have hpos : i < names.length →
      (chainNames names).getD i "" =
        resolveName (chainNames (names.take i))
          ((chainNames (names.take i)).length + 2) (names.getD i "") := by
    intro hi
    rw [chainNames_split names i, List.drop_eq_getElem_cons hi, List.foldl_cons]
    have hstep : addComponentName (chainNames (names.take i)) names[i] =
        chainNames (names.take i) ++
          [resolveName (chainNames (names.take i))
            ((chainNames (names.take i)).length + 2) names[i]] := rfl
    have hlen : (chainNames (names.take i)).length = i :=
      chainNames_take_length names i hi
    rw [foldl_add_getD _ _ i (by simp [addComponentName]; omega), hstep]
    have hgetd : names.getD i "" = names[i] := List.getD_eq_getElem names "" hi
    rw [hgetd]
    rw [List.getD_append_right _ _ _ _ (by omega)]
    simp [hlen]
  refine ⟨?_, ?_, hpos, ?_, rfl, rfl, rfl, rfl, rfl, rfl, rfl⟩
  · unfold chainNames
    rw [foldl_add_length]
    simp
  · intro hn
    exact foldl_add_nodup names [] (by simpa using hn) List.nodup_nil
  · intro hi hout
    rw [hpos hi]
    have hlen : (chainNames (names.take i)).length = i :=
      chainNames_take_length names i hi
    exact resolveName_not_mem _ _ _ hout

/-- C5 witness: adding "B" after "A" keeps it verbatim, and the two names
are distinct. -/
theorem chain_add_component_names_witness :
    (chainNames ["A", "B"]).getD 1 "" = "B" ∧ (chainNames ["A", "B"]).Nodup :=
  ⟨(chain_add_component_names ["A", "B"] 1).2.2.2.1 (by simp) (by decide),
   (chain_add_component_names ["A", "B"] 1).2.1 (by decide)⟩

/-- C5 counterexample to the unbounded reading of the suffix increment:
a colliding name already carrying the maximal `u32` suffix `#4294967295`
is renamed to "A#0" — the `u32` increment wraps (release builds; debug
builds panic) — not to an unbounded "A#4294967296". -/
theorem chain_wrap_counterexample :
    chainNames ["A#4294967295", "A#4294967295"] = ["A#4294967295", "A#0"] ∧
    "A#0" ≠ "A#4294967296" :=
  ⟨rfl, by decide⟩

end YaNegotiator
